import Mathlib

/-
  Verification development for the OMEGA batched tridiagonal solvers
  (src/components/omega/src/base/Tridiagonal.h).

  The four solvers (ThomasSolver, PCRSolver, ThomasDiffusionSolver,
  PCRDiffusionSolver) are embedded shallowly over exact rational
  arithmetic.  Machine ints become Nat: the C++ clamp
  "Kmh = K - HalfStride; Kmh = Kmh < 0 ? 0 : Kmh" is truncated Nat
  subtraction, the clamp "Kph >= NRow ? NRow - 1 : Kph" is min with
  NRow - 1, and the test "K - Stride >= 0" on ints becomes Stride <= K.
  The float expression ceil(log2(NRow)) is Nat.clog 2 NRow (both are the
  least L with NRow <= 2 ^ L for NRow >= 1); for NRow >= 2 the shift
  1 << (NLevels - 1) is 2 ^ (NLevels - 1).  For NRow = 1 the source has
  NLevels = 0 and computes 1 << -1, a negative shift count - undefined
  behavior in C++.  On mainstream targets (x86, NVIDIA) the shift count
  is masked, the huge stride makes the paired branch taken vacuously
  with K < NRow/2 false, no unit writes, and the right-hand side is
  returned unchanged; the PCR solve functions below model that outcome
  explicitly instead of pretending the stride is 1.

  A per-system state is a quadruple of total functions on Nat; out of
  range indices are never read by the algorithms (all neighbor indices
  are clamped into the row range), so the total functions lose nothing.
-/

namespace OmegaTridiag

/-- One tridiagonal system held in scratch: sub-diagonal DL, diagonal D,
super-diagonal DU and right-hand-side/solution X, as in TriDiagScratch
(Tridiagonal.h lines 25-34), restricted to a single lane. -/
@[ext]
structure TriSys where
  dl : ℕ → ℚ
  d  : ℕ → ℚ
  du : ℕ → ℚ
  x  : ℕ → ℚ

/-- One diffusion-form system held in scratch: coupling G, capacity H and
right-hand-side/solution X, as in TriDiagDiffScratch (lines 216-225),
restricted to a single lane. -/
@[ext]
structure DiffSys where
  G : ℕ → ℚ
  H : ℕ → ℚ
  X : ℕ → ℚ

/-! ## ThomasSolver (Tridiagonal.h lines 36-111)

The scratch-level solve (lines 45-69) runs the forward sweep
  for K = 1..NRow-1: W = DL(K)/D(K-1); D(K) -= W*DU(K-1); X(K) -= W*X(K-1)
then divides the last row and back-substitutes.  Each array cell is
written once, after its lower neighbor has reached its final value, so
the loop is a structural recursion on the row index.  The IVec loops are
lane-local (no cross-lane reads), so one lane is modelled. -/

/-- Forward-swept diagonal of ThomasSolver: the final value of D(K) after
the elimination loop (lines 49-55). -/
def thomasD (s : TriSys) : ℕ → ℚ
  | 0 => s.d 0
  | k + 1 => s.d (k + 1) - s.dl (k + 1) / thomasD s k * s.du k

/-- Forward-swept right-hand side of ThomasSolver: the value of X(K) after
the elimination loop (lines 49-55). -/
def thomasR (s : TriSys) : ℕ → ℚ
  | 0 => s.x 0
  | k + 1 => s.x (k + 1) - s.dl (k + 1) / thomasD s k * thomasR s k

/-- Back-substitution of ThomasSolver (lines 57-68), indexed by the
distance j from the top row: entry j is the solved value at row M-1-j. -/
def thomasB (s : TriSys) (M : ℕ) : ℕ → ℚ
  | 0 => thomasR s (M - 1) / thomasD s (M - 1)
  | j + 1 =>
      (thomasR s (M - 2 - j) - s.du (M - 2 - j) * thomasB s M j) /
        thomasD s (M - 2 - j)

/-- Solution of one M-row system by ThomasSolver (lines 45-69). -/
def thomasSolve1 (M : ℕ) (s : TriSys) : ℕ → ℚ :=
  fun k => thomasB s M (M - 1 - k)

/-! ## PCRSolver (Tridiagonal.h lines 113-214) -/

/-- Number of reduction levels: NLevels = ceil(log2(NRow)) (line 128). -/
def NLevels (M : ℕ) : ℕ := Nat.clog 2 M

/-- Clamp of an upper neighbor index to the row range (line 138). -/
def clampHi (M i : ℕ) : ℕ := min i (M - 1)

/-- One reduction level of PCRSolver (lines 130-158) at half-stride h.
Every row k < M simultaneously computes alpha, gamma and its new
coefficients from the previous level's values; a team barrier separates
all the reads from all the writes, so the update is a pointwise function
of the old state. -/
def pcrStep (M h : ℕ) (s : TriSys) : TriSys :=
  let alpha := fun k => -s.dl k / s.d (k - h)
  let gamma := fun k => -s.du k / s.d (clampHi M (k + h))
  { dl := fun k => if k < M then alpha k * s.dl (k - h) else s.dl k
    d := fun k => if k < M then
        s.d k + alpha k * s.du (k - h) + gamma k * s.dl (clampHi M (k + h))
      else s.d k
    du := fun k => if k < M then gamma k * s.du (clampHi M (k + h)) else s.du k
    x := fun k => if k < M then
        s.x k + alpha k * s.x (k - h) + gamma k * s.x (clampHi M (k + h))
      else s.x k }

/-- The first n reduction levels of PCRSolver: level Lev has half-stride
2 ^ (Lev - 1), so after n applications levels 1..n have run. -/
def pcrIter (M : ℕ) (s : TriSys) : ℕ → TriSys
  | 0 => s
  | n + 1 => pcrStep M (2 ^ n) (pcrIter M s n)

/-- State after the reduction loop of PCRSolver (lines 130-158): levels
Lev = 1 .. NLevels-1 have run. -/
def pcrReduced (M : ℕ) (s : TriSys) : TriSys := pcrIter M s (NLevels M - 1)

/-- Final stage of PCRSolver (lines 160-176) at stride S: a row k with
k < M/2 and a valid partner solves the 2x2 system for rows k and k+S
(writing both), an unpaired boundary row divides directly, and a row
k >= M/2 with a partner below receives the second component written by
row k-S. -/
def pcrFinal (M S : ℕ) (s : TriSys) : ℕ → ℚ := fun k =>
  if k + S < M ∨ S ≤ k then
    if k < M / 2 then
      (s.d (k + S) * s.x k - s.du k * s.x (k + S)) /
        (s.d k * s.d (k + S) - s.dl (k + S) * s.du k)
    else if S ≤ k ∧ k - S < M / 2 then
      (-s.dl k * s.x (k - S) + s.d (k - S) * s.x k) /
        (s.d (k - S) * s.d k - s.dl k * s.du (k - S))
    else s.x k
  else s.x k / s.d k

/-- Solution of one M-row system by PCRSolver (lines 122-177).  For
M >= 2 the final stride is 2 ^ (NLevels - 1).  For M = 1 the source
computes Stride = 1 << -1, undefined behavior: on real targets the
masked shift count produces a huge stride, the pairing branch at line
162 is entered with K < NRow/2 false, no unit writes, and X is returned
unchanged - so the one-row case leaves the right-hand side undivided. -/
def pcrSolve1 (M : ℕ) (s : TriSys) : ℕ → ℚ := fun k =>
  if 2 ≤ M then pcrFinal M (2 ^ (NLevels M - 1)) (pcrReduced M s) k
  else s.x k

/-! ## ThomasDiffusionSolver (Tridiagonal.h lines 227-319)

Alpha is filled in a first pass from the original H (lines 240-252);
then H(0) += G(0) (lines 254-256) and the k-th pass adds Alpha(K)+G(K)
to H(K) while X(K) accumulates G(K-1)/H(K-1)*X(K-1) with the already
updated H(K-1) (lines 258-267); back-substitution adds the coupled term
(lines 269-279). -/

/-- The Alpha recurrence of ThomasDiffusionSolver (lines 240-252),
computed from the original H values. -/
def diffAlpha (s : DiffSys) : ℕ → ℚ
  | 0 => 0
  | k + 1 =>
      s.G k * (s.H k + diffAlpha s k) /
        (s.H k + diffAlpha s k + s.G k)

/-- The updated capacity H of ThomasDiffusionSolver (lines 254-262). -/
def diffH (s : DiffSys) : ℕ → ℚ
  | 0 => s.H 0 + s.G 0
  | k + 1 => s.H (k + 1) + (diffAlpha s (k + 1) + s.G (k + 1))

/-- The accumulated right-hand side of ThomasDiffusionSolver
(lines 258-267); row k uses the already updated H at row k-1. -/
def diffR (s : DiffSys) : ℕ → ℚ
  | 0 => s.X 0
  | k + 1 => s.X (k + 1) + s.G k / diffH s k * diffR s k

/-- Back-substitution of ThomasDiffusionSolver (lines 269-279), indexed
by the distance j from the top row. -/
def diffB (s : DiffSys) (M : ℕ) : ℕ → ℚ
  | 0 => diffR s (M - 1) / diffH s (M - 1)
  | j + 1 =>
      (diffR s (M - 2 - j) + s.G (M - 2 - j) * diffB s M j) /
        diffH s (M - 2 - j)

/-- Solution of one M-row system by ThomasDiffusionSolver (lines 236-280). -/
def thomasDiffSolve1 (M : ℕ) (s : DiffSys) : ℕ → ℚ :=
  fun k => diffB s M (M - 1 - k)

/-! ## PCRDiffusionSolver (Tridiagonal.h lines 321-425) -/

/-- One reduction level of PCRDiffusionSolver (lines 338-371) at
half-stride h (the level's Stride is 2*h).  Gkmh and Gkms substitute 0
for a coupling below row 0 (lines 343-348). -/
def pcrDiffStep (M h : ℕ) (s : DiffSys) : DiffSys :=
  let gkmh := fun k => if k < h then 0 else s.G (k - h)
  let gkms := fun k => if k < 2 * h then 0 else s.G (k - 2 * h)
  let alpha := fun k => gkmh k / (s.H (k - h) + gkms k + gkmh k)
  let beta := fun k =>
    s.G k / (s.H (clampHi M (k + h)) + s.G k + s.G (clampHi M (k + h)))
  { G := fun k => if k < M then s.G (clampHi M (k + h)) * beta k else s.G k
    H := fun k => if k < M then
        s.H k + alpha k * s.H (k - h) + beta k * s.H (clampHi M (k + h))
      else s.H k
    X := fun k => if k < M then
        s.X k + alpha k * s.X (k - h) + beta k * s.X (clampHi M (k + h))
      else s.X k }

/-- The first n reduction levels of PCRDiffusionSolver. -/
def pcrDiffIter (M : ℕ) (s : DiffSys) : ℕ → DiffSys
  | 0 => s
  | n + 1 => pcrDiffStep M (2 ^ n) (pcrDiffIter M s n)

/-- Final stage of PCRDiffusionSolver (lines 373-399) at stride S:
effective diagonals are H(k) + Gkms + G(k) with Gkms = 0 below row 0,
off-diagonals are -G; pairing and writes as in pcrFinal. -/
def pcrDiffFinal (M S : ℕ) (s : DiffSys) : ℕ → ℚ := fun k =>
  if k + S < M ∨ S ≤ k then
    if k < M / 2 then
      let gkms := if k < S then 0 else s.G (k - S)
      let dk := s.H k + gkms + s.G k
      let dkps := s.H (k + S) + s.G k + s.G (k + S)
      (dkps * s.X k - -s.G k * s.X (k + S)) /
        (dk * dkps - -s.G k * -s.G k)
    else if S ≤ k ∧ k - S < M / 2 then
      let p := k - S
      let gpms := if p < S then 0 else s.G (p - S)
      let dp := s.H p + gpms + s.G p
      let dk := s.H k + s.G p + s.G k
      (- -s.G p * s.X p + dp * s.X k) /
        (dp * dk - -s.G p * -s.G p)
    else s.X k
  else
    let gkms := if k < S then 0 else s.G (k - S)
    s.X k / (s.H k + gkms + s.G k)

/-- Solution of one M-row system by PCRDiffusionSolver (lines 330-400).
As with pcrSolve1, at M = 1 the source's final stride 1 << -1 is
undefined behavior whose practical outcome is that no unit writes and X
is returned unchanged; that outcome is modelled explicitly. -/
def pcrDiffSolve1 (M : ℕ) (s : DiffSys) : ℕ → ℚ := fun k =>
  if 2 ≤ M then
    pcrDiffFinal M (2 ^ (NLevels M - 1)) (pcrDiffIter M s (NLevels M - 1)) k
  else s.X k

/-! ## Array-level entry points

The caller-facing overloads take 2-D arrays indexed [system, row].  The
Thomas-family entries (lines 71-110 and 282-318) stage groups of
VecLength lanes: lane I = league_rank * VecLength + IVec is loaded from
the arrays when I < NBatch and otherwise filled with the inert system
DL = 0, D = 1, DU = 0, X = 0 (G = 0, H = 1, X = 0 for diffusion); the
scratch solve touches each lane independently (every IVec-loop body
reads and writes only its own lane), and the write-back stores only
lanes with I < NBatch.  So the batch entry is, lane for lane, the
single-system solve of the staged system.  PCRSolver's entry
(lines 179-213) guards both staging and write-back by I < NBatch in the
same way, one system per team.  PCRDiffusionSolver's entry
(lines 402-424) has no guard; its makeTeamPolicy (lines 323-328)
launches exactly NBatch teams of NRow threads, so league ranks at or
beyond NBatch and team ranks at or beyond NRow never execute, and the
model is the identity outside those bounds. -/

/-- 2-D coefficient and right-hand-side arrays for the tridiagonal form. -/
structure TriArrays where
  DL : ℕ → ℕ → ℚ
  D  : ℕ → ℕ → ℚ
  DU : ℕ → ℕ → ℚ
  X  : ℕ → ℕ → ℚ

/-- 2-D coefficient and right-hand-side arrays for the diffusion form. -/
structure DiffArrays where
  G : ℕ → ℕ → ℚ
  H : ℕ → ℕ → ℚ
  X : ℕ → ℕ → ℚ

/-- The inert padding system for tridiagonal staging (lines 91-96). -/
def inertTri : TriSys where
  dl := fun _ => 0
  d := fun _ => 1
  du := fun _ => 0
  x := fun _ => 0

/-- The inert padding system for diffusion staging (lines 300-304). -/
def inertDiff : DiffSys where
  G := fun _ => 0
  H := fun _ => 1
  X := fun _ => 0

/-- Staging of lane I by the tridiagonal entries (lines 83-98, 192-202):
a real system below NBatch, the inert system beyond. -/
def stageTri (NBatch : ℕ) (A : TriArrays) (I : ℕ) : TriSys :=
  if I < NBatch then ⟨A.DL I, A.D I, A.DU I, A.X I⟩ else inertTri

/-- Staging of lane I by ThomasDiffusionSolver (lines 293-306). -/
def stageDiff (NBatch : ℕ) (A : DiffArrays) (I : ℕ) : DiffSys :=
  if I < NBatch then ⟨A.G I, A.H I, A.X I⟩ else inertDiff

/-- Array-level ThomasSolver::solve (lines 71-110). -/
def thomasArraySolve (NBatch NRow : ℕ) (A : TriArrays) : TriArrays :=
  { A with X := fun I K =>
      if I < NBatch ∧ K < NRow then thomasSolve1 NRow (stageTri NBatch A I) K
      else A.X I K }

/-- Array-level PCRSolver::solve (lines 179-213). -/
def pcrArraySolve (NBatch NRow : ℕ) (A : TriArrays) : TriArrays :=
  { A with X := fun I K =>
      if I < NBatch ∧ K < NRow then pcrSolve1 NRow (stageTri NBatch A I) K
      else A.X I K }

/-- Array-level ThomasDiffusionSolver::solve (lines 282-318). -/
def thomasDiffArraySolve (NBatch NRow : ℕ) (A : DiffArrays) : DiffArrays :=
  { A with X := fun I K =>
      if I < NBatch ∧ K < NRow then thomasDiffSolve1 NRow (stageDiff NBatch A I) K
      else A.X I K }

/-- Array-level PCRDiffusionSolver::solve (lines 402-424); the bounds
come from the launch policy, not from guards in the body. -/
def pcrDiffArraySolve (NBatch NRow : ℕ) (A : DiffArrays) : DiffArrays :=
  { A with X := fun I K =>
      if I < NBatch ∧ K < NRow then pcrDiffSolve1 NRow ⟨A.G I, A.H I, A.X I⟩ K
      else A.X I K }

/-! ## Specification-side notions -/

/-- Modelled from the spec: the action of the tridiagonal matrix of a
system on a vector, row k giving sub k * v (k-1) + diag k * v k +
super k * v (k+1).  For a well-posed batch the structurally absent
corner coefficients sub 0 and super (M-1) are zero, so the truncated
index k - 1 at k = 0 is harmless. -/
def applyTri (s : TriSys) (v : ℕ → ℚ) (k : ℕ) : ℚ :=
  s.dl k * v (k - 1) + s.d k * v k + s.du k * v (k + 1)

/-- Strict diagonal dominance of the first M rows, the spec's example of
a well-posedness condition. -/
def DomTri (M : ℕ) (s : TriSys) : Prop :=
  ∀ k < M, |s.dl k| + |s.du k| < |s.d k|

/-- Structurally well-formed tridiagonal system: the corner coefficients
below row 0 and above row M-1 are zero. -/
def CornersZero (M : ℕ) (s : TriSys) : Prop :=
  s.dl 0 = 0 ∧ s.du (M - 1) = 0

/-- Well-posedness of a diffusion batch: positive capacities and
nonnegative couplings. -/
def PosDiff (M : ℕ) (s : DiffSys) : Prop :=
  ∀ k < M, 0 < s.H k ∧ 0 ≤ s.G k

/-- The explicit tridiagonal system that the code's diffusion
elimination actually solves: the diagonal at row k is H k plus BOTH
adjacent couplings G (k-1) and G k - including, at the last row, the
boundary coupling G (M-1), which ThomasDiffusionSolver folds into the
last diagonal (line 260 runs up to K = NRow-1) with no matching
off-diagonal term.  Off-diagonals are the negated couplings.  This is
the code's effective translation; it deviates from the spec's worded
translation (specDiffToTri below) exactly when G (M-1) is nonzero. -/
def diffToTri (s : DiffSys) : TriSys where
  dl := fun k => if k = 0 then 0 else -s.G (k - 1)
  d := fun k => s.H k + s.G k + (if k = 0 then 0 else s.G (k - 1))
  du := fun k => -s.G k
  x := s.X

/-- Modelled from the spec: the claim's literal translation of an M-row
diffusion batch - the diagonal at row k is H k plus the coupling terms
from its one or two existing neighbors (G (k-1) below when k >= 1 and
G k above only when row k+1 exists), and the off-diagonals are the
negated coupling G values. -/
def specDiffToTri (M : ℕ) (s : DiffSys) : TriSys where
  dl := fun k => if k = 0 then 0 else -s.G (k - 1)
  d := fun k => s.H k + (if k = 0 then 0 else s.G (k - 1)) +
    (if k + 1 < M then s.G k else 0)
  du := fun k => if k + 1 < M then -s.G k else 0
  x := s.X

/-- Modelled from the spec: clamping of a (possibly negative) neighbor
index into the row range 0 .. M-1, as the PCR description states it. -/
def specClamp (M : ℕ) (i : ℤ) : ℕ := (max 0 (min i ((M : ℤ) - 1))).toNat

/-- Modelled from the spec: one PCR reduction level as claim C4 words it,
with both neighbor indices of row k clamped to the range 0 .. M-1. -/
def specPcrStep (M h : ℕ) (s : TriSys) : TriSys :=
  let km := fun k : ℕ => specClamp M ((k : ℤ) - (h : ℤ))
  let kp := fun k : ℕ => specClamp M ((k : ℤ) + (h : ℤ))
  let alpha := fun k => -s.dl k / s.d (km k)
  let gamma := fun k => -s.du k / s.d (kp k)
  { dl := fun k => if k < M then alpha k * s.dl (km k) else s.dl k
    d := fun k => if k < M then
        s.d k + alpha k * s.du (km k) + gamma k * s.dl (kp k)
      else s.d k
    du := fun k => if k < M then gamma k * s.du (kp k) else s.du k
    x := fun k => if k < M then
        s.x k + alpha k * s.x (km k) + gamma k * s.x (kp k)
      else s.x k }

/-- The coupling of row k to the row stride positions below it, zero when
that row would lie below row 0 (the Gkms/Gkmh pattern of
PCRDiffusionSolver, lines 343-348). -/
def gms (σ : ℕ) (s : DiffSys) (k : ℕ) : ℚ := if k < σ then 0 else s.G (k - σ)

/-- Invariant of the PCR reduction at stride σ: rows below σ have lost
their sub-coefficient, rows within σ of the top have lost their
super-coefficient, and every row's equation couples only neighbors at
distance σ of the solution vector v. -/
def PcrInv (M σ : ℕ) (v : ℕ → ℚ) (t : TriSys) : Prop :=
  (∀ k, k < M → k < σ → t.dl k = 0) ∧
  (∀ k, k < M → M ≤ k + σ → t.du k = 0) ∧
  (∀ k, k < M →
    t.dl k * v (k - σ) + t.d k * v k + t.du k * v (k + σ) = t.x k)

/-- Invariant of the diffusion PCR reduction at stride σ: couplings that
would reach above row M-1 are zero, capacities stay positive and
couplings nonnegative, and every row's equation, with effective diagonal
H k + gms σ s k + G k, couples neighbors at distance σ of v. -/
def PcrDiffInv (M σ : ℕ) (v : ℕ → ℚ) (s : DiffSys) : Prop :=
  (∀ k, k < M → M ≤ k + σ → s.G k = 0) ∧
  PosDiff M s ∧
  (∀ k, k < M →
    (s.H k + gms σ s k + s.G k) * v k - gms σ s k * v (k - σ) -
      s.G k * v (k + σ) = s.X k)

/-! ## Concrete example systems -/

/-- The spec's concrete scenario: sub = [0,1,1,1], diag = [4,4,4,4],
super = [1,1,1,0], rhs = [5,6,6,5]. -/
def exTri : TriSys where
  dl := fun k => if k = 0 then 0 else if k < 4 then 1 else 0
  d := fun k => if k < 4 then 4 else 0
  du := fun k => if k < 3 then 1 else 0
  x := fun k => if k = 0 then 5 else if k < 3 then 6 else if k = 3 then 5 else 0

/-- A 3-row diffusion system with all couplings and capacities one; its
last coupling G 2 is nonzero, which the two diffusion solvers resolve
differently. -/
def exDiff : DiffSys where
  G := fun _ => 1
  H := fun _ => 1
  X := fun _ => 1

/-- The spec scenario packed as a one-system batch. -/
def exTriArrays : TriArrays where
  DL := fun _ => exTri.dl
  D := fun _ => exTri.d
  DU := fun _ => exTri.du
  X := fun _ => exTri.x

/-- A 4-row diffusion batch system with last coupling zero. -/
def exDiff0 : DiffSys where
  G := fun k => if k < 3 then (k + 1 : ℚ) else 0
  H := fun k => (k + 2 : ℚ)
  X := fun k => (2 * k + 1 : ℚ)

/-- A well-posed one-row system: diag = 4, rhs = 5, whose solution is
5/4.  PCRSolver hits the undefined-behavior stride at one row and
leaves the right-hand side 5 in place. -/
def exTriOne : TriSys where
  dl := fun _ => 0
  d := fun _ => 4
  du := fun _ => 0
  x := fun _ => 5

/-- The same one-row system packed as a one-system batch. -/
def exTriOneArrays : TriArrays where
  DL := fun _ _ => 0
  D := fun _ _ => 4
  DU := fun _ _ => 0
  X := fun _ _ => 5

/-! ## Basic facts about the level count -/

theorem nlevels_one : NLevels 1 = 0 := Nat.clog_one_right 2

theorem nlevels_le {M L : ℕ} (h : M ≤ 2 ^ L) : NLevels M ≤ L :=
  (Nat.le_pow_iff_clog_le one_lt_two).1 h

theorem le_pow_nlevels (M : ℕ) : M ≤ 2 ^ NLevels M :=
  Nat.le_pow_clog one_lt_two M

theorem nlevels_pos {M : ℕ} (h : 2 ≤ M) : 1 ≤ NLevels M :=
  Nat.clog_pos one_lt_two h

theorem pow_pred_nlevels_lt {M : ℕ} (h : 2 ≤ M) : 2 ^ (NLevels M - 1) < M :=
  Nat.pow_pred_clog_lt_self one_lt_two h

/-- The bound M <= 2 * S for the final stride S = 2 ^ (NLevels M - 1),
valid for every M (for M <= 1 the truncated exponent still gives S = 1). -/
theorem le_two_mul_stride (M : ℕ) : M ≤ 2 * 2 ^ (NLevels M - 1) := by
  rcases le_or_lt M 1 with hM | hM
  · have : (1 : ℕ) ≤ 2 ^ (NLevels M - 1) := Nat.one_le_two_pow
    omega
  · have h1 : 1 ≤ NLevels M := nlevels_pos hM
    have h2 : M ≤ 2 ^ NLevels M := le_pow_nlevels M
    have h3 : 2 ^ NLevels M = 2 * 2 ^ (NLevels M - 1) := by
      rw [← pow_succ']
      congr 1
      omega
    omega

theorem nlevels_four : NLevels 4 = 2 := by
  have h4 : (4 : ℕ) = 2 ^ 2 := by norm_num
  rw [NLevels, h4]
  exact Nat.clog_pow 2 2 one_lt_two

theorem nlevels_three : NLevels 3 = 2 := by
  have h1 : NLevels 3 ≤ 2 := nlevels_le (by norm_num)
  have h2 : ¬NLevels 3 ≤ 1 := by
    intro h
    have h3 : (3 : ℕ) ≤ 2 ^ 1 := (Nat.le_pow_iff_clog_le one_lt_two).2 h
    norm_num at h3
  omega

/-! ## Claim C8: the concrete 4-row scenario -/

/-- C8: the single 4-row system with sub = [0,1,1,1], diag = [4,4,4,4],
super = [1,1,1,0], rhs = [5,6,6,5] is solved to x = [1,1,1,1], exactly
over exact arithmetic, by both ThomasSolver and PCRSolver. -/
theorem c8_concrete_scenario :
    thomasSolve1 4 exTri 0 = 1 ∧ thomasSolve1 4 exTri 1 = 1 ∧
    thomasSolve1 4 exTri 2 = 1 ∧ thomasSolve1 4 exTri 3 = 1 ∧
    pcrSolve1 4 exTri 0 = 1 ∧ pcrSolve1 4 exTri 1 = 1 ∧
    pcrSolve1 4 exTri 2 = 1 ∧ pcrSolve1 4 exTri 3 = 1 := by
  have hred : pcrReduced 4 exTri = pcrIter 4 exTri 1 := by
    rw [pcrReduced, nlevels_four]
  have hsolve : ∀ k, pcrSolve1 4 exTri k = pcrFinal 4 2 (pcrIter 4 exTri 1) k := by
    intro k
    rw [pcrSolve1, hred, nlevels_four]
    norm_num
  refine ⟨?_, ?_, ?_, ?_, ?_, ?_, ?_, ?_⟩ <;>
    first
      | (show thomasB exTri 4 _ = 1
         norm_num [thomasB, thomasR, thomasD, exTri])
      | (rw [hsolve]
         norm_num [pcrFinal, pcrIter, pcrStep, clampHi, exTri])

/-! ## Claim C7: single-row systems -/

/-- C7 documents a code bug for the PCR half.  ThomasSolver does return
x 0 = rhs 0 / diag 0 for a one-row system, at the scratch level and
through its array entry point.  PCRSolver does not: at NRow = 1 it
computes Stride = 1 << (NLevels - 1) = 1 << -1, undefined behavior in
C++; on real targets the masked shift makes the pairing condition at
line 162 hold vacuously with K < NRow/2 false, no unit executes a
divide, and the right-hand side is returned unchanged - so PCRSolver
returns rhs 0, not rhs 0 / diag 0, whenever diag 0 is not 1. -/
theorem c7_single_row (s : TriSys) (NBatch : ℕ) (A : TriArrays) (I : ℕ)
    (hI : I < NBatch) :
    thomasSolve1 1 s 0 = s.x 0 / s.d 0 ∧
    (thomasArraySolve NBatch 1 A).X I 0 = A.X I 0 / A.D I 0 ∧
    pcrSolve1 1 s 0 = s.x 0 ∧
    (pcrArraySolve NBatch 1 A).X I 0 = A.X I 0 := by
  have hp : ∀ t : TriSys, pcrSolve1 1 t 0 = t.x 0 := by
    intro t
    rw [pcrSolve1]
    norm_num
  have hstage : stageTri NBatch A I = ⟨A.DL I, A.D I, A.DU I, A.X I⟩ := by
    rw [stageTri, if_pos hI]
  refine ⟨rfl, ?_, hp s, ?_⟩
  · show (if I < NBatch ∧ 0 < 1 then thomasSolve1 1 (stageTri NBatch A I) 0
        else A.X I 0) = A.X I 0 / A.D I 0
    rw [if_pos ⟨hI, Nat.one_pos⟩, hstage]
    rfl
  · show (if I < NBatch ∧ 0 < 1 then pcrSolve1 1 (stageTri NBatch A I) 0
        else A.X I 0) = A.X I 0
    rw [if_pos ⟨hI, Nat.one_pos⟩, hstage, hp]

/-- Witness for C7 at the concrete failing one-row batch diag = 4,
rhs = 5: Thomas divides to 5/4, PCR leaves 5 in place, and the two
entry points disagree. -/
theorem c7_witness :
    (thomasArraySolve 1 1 exTriOneArrays).X 0 0 = 5 / 4 ∧
    (pcrArraySolve 1 1 exTriOneArrays).X 0 0 = 5 ∧
    (thomasArraySolve 1 1 exTriOneArrays).X 0 0 ≠
      (pcrArraySolve 1 1 exTriOneArrays).X 0 0 := by
  have h := c7_single_row exTriOne 1 exTriOneArrays 0 Nat.one_pos
  have h1 : (thomasArraySolve 1 1 exTriOneArrays).X 0 0 = 5 / 4 := by
    rw [h.2.1]
    norm_num [exTriOneArrays]
  have h2 : (pcrArraySolve 1 1 exTriOneArrays).X 0 0 = 5 := by
    rw [h.2.2.2]
    norm_num [exTriOneArrays]
  refine ⟨h1, h2, ?_⟩
  rw [h1, h2]
  norm_num

/-! ## Claim C10: coefficient arrays are never written -/

/-- C10: each of the four array-level solve entry points returns the
coefficient arrays unchanged; only the right-hand-side array X is
overwritten.  In the source all stores of the elimination target the
per-call scratch views; the only store to a caller array is the
write-back to X. -/
theorem c10_coefficients_unchanged (NBatch NRow : ℕ) (A : TriArrays)
    (B : DiffArrays) :
    (thomasArraySolve NBatch NRow A).DL = A.DL ∧
    (thomasArraySolve NBatch NRow A).D = A.D ∧
    (thomasArraySolve NBatch NRow A).DU = A.DU ∧
    (pcrArraySolve NBatch NRow A).DL = A.DL ∧
    (pcrArraySolve NBatch NRow A).D = A.D ∧
    (pcrArraySolve NBatch NRow A).DU = A.DU ∧
    (thomasDiffArraySolve NBatch NRow B).G = B.G ∧
    (thomasDiffArraySolve NBatch NRow B).H = B.H ∧
    (pcrDiffArraySolve NBatch NRow B).G = B.G ∧
    (pcrDiffArraySolve NBatch NRow B).H = B.H :=
  ⟨rfl, rfl, rfl, rfl, rfl, rfl, rfl, rfl, rfl, rfl⟩

/-! ## Claim C6: padding lanes are inert and invisible -/

/-- C6: padding lanes beyond the true batch size are staged as the inert
system (diagonal/H = 1, off-diagonals/couplings = 0, right-hand side =
0); no entry point writes to any batch index at or beyond NBatch; and
the solved values of the real systems do not change when the batch is
extended with further (inert or arbitrary) systems.  PCRDiffusionSolver
launches exactly one team per system, so its padding clauses reduce to
the write-back bound. -/
theorem c6_padding_inert_and_invariant :
    (∀ NB (A : TriArrays) I, NB ≤ I → stageTri NB A I = inertTri) ∧
    (∀ NB (B : DiffArrays) I, NB ≤ I → stageDiff NB B I = inertDiff) ∧
    (∀ NB NR (A : TriArrays) I K, NB ≤ I →
      (thomasArraySolve NB NR A).X I K = A.X I K ∧
      (pcrArraySolve NB NR A).X I K = A.X I K) ∧
    (∀ NB NR (B : DiffArrays) I K, NB ≤ I →
      (thomasDiffArraySolve NB NR B).X I K = B.X I K ∧
      (pcrDiffArraySolve NB NR B).X I K = B.X I K) ∧
    (∀ NB NB' NR (A A' : TriArrays), NB ≤ NB' →
      (∀ I, I < NB →
        A.DL I = A'.DL I ∧ A.D I = A'.D I ∧ A.DU I = A'.DU I ∧ A.X I = A'.X I) →
      ∀ I K, I < NB → K < NR →
        (thomasArraySolve NB NR A).X I K = (thomasArraySolve NB' NR A').X I K ∧
        (pcrArraySolve NB NR A).X I K = (pcrArraySolve NB' NR A').X I K) ∧
    (∀ NB NB' NR (B B' : DiffArrays), NB ≤ NB' →
      (∀ I, I < NB → B.G I = B'.G I ∧ B.H I = B'.H I ∧ B.X I = B'.X I) →
      ∀ I K, I < NB → K < NR →
        (thomasDiffArraySolve NB NR B).X I K =
          (thomasDiffArraySolve NB' NR B').X I K ∧
        (pcrDiffArraySolve NB NR B).X I K =
          (pcrDiffArraySolve NB' NR B').X I K) := by
  refine ⟨?_, ?_, ?_, ?_, ?_, ?_⟩
  · intro NB A I h
    rw [stageTri, if_neg (by omega)]
  · intro NB B I h
    rw [stageDiff, if_neg (by omega)]
  · intro NB NR A I K h
    constructor <;>
      exact if_neg (by omega)
  · intro NB NR B I K h
    constructor <;>
      exact if_neg (by omega)
  · intro NB NB' NR A A' hle hagree I K hI hK
    have hI' : I < NB' := lt_of_lt_of_le hI hle
    have hstage : stageTri NB A I = stageTri NB' A' I := by
      rw [stageTri, stageTri, if_pos hI, if_pos hI']
      obtain ⟨h1, h2, h3, h4⟩ := hagree I hI
      rw [h1, h2, h3, h4]
    constructor
    · show (if I < NB ∧ K < NR then thomasSolve1 NR (stageTri NB A I) K
          else A.X I K) = (if I < NB' ∧ K < NR then
            thomasSolve1 NR (stageTri NB' A' I) K else A'.X I K)
      rw [if_pos ⟨hI, hK⟩, if_pos ⟨hI', hK⟩, hstage]
    · show (if I < NB ∧ K < NR then pcrSolve1 NR (stageTri NB A I) K
          else A.X I K) = (if I < NB' ∧ K < NR then
            pcrSolve1 NR (stageTri NB' A' I) K else A'.X I K)
      rw [if_pos ⟨hI, hK⟩, if_pos ⟨hI', hK⟩, hstage]
  · intro NB NB' NR B B' hle hagree I K hI hK
    have hI' : I < NB' := lt_of_lt_of_le hI hle
    obtain ⟨h1, h2, h3⟩ := hagree I hI
    have hstage : stageDiff NB B I = stageDiff NB' B' I := by
      rw [stageDiff, stageDiff, if_pos hI, if_pos hI', h1, h2, h3]
    constructor
    · show (if I < NB ∧ K < NR then thomasDiffSolve1 NR (stageDiff NB B I) K
          else B.X I K) = (if I < NB' ∧ K < NR then
            thomasDiffSolve1 NR (stageDiff NB' B' I) K else B'.X I K)
      rw [if_pos ⟨hI, hK⟩, if_pos ⟨hI', hK⟩, hstage]
    · show (if I < NB ∧ K < NR then
            pcrDiffSolve1 NR ⟨B.G I, B.H I, B.X I⟩ K else B.X I K) =
          (if I < NB' ∧ K < NR then
            pcrDiffSolve1 NR ⟨B'.G I, B'.H I, B'.X I⟩ K else B'.X I K)
      rw [if_pos ⟨hI, hK⟩, if_pos ⟨hI', hK⟩, h1, h2, h3]

/-- Witness for C6: the spec scenario as a one-system batch padded to a
two-slot batch with an inert second system; the padded and unpadded
solves agree on the real system and the padding slot is left untouched. -/
theorem c6_witness :
    (thomasArraySolve 1 4 exTriArrays).X 0 2 =
      (thomasArraySolve 2 4
        ⟨fun I => if I = 0 then exTriArrays.DL 0 else inertTri.dl,
         fun I => if I = 0 then exTriArrays.D 0 else inertTri.d,
         fun I => if I = 0 then exTriArrays.DU 0 else inertTri.du,
         fun I => if I = 0 then exTriArrays.X 0 else inertTri.x⟩).X 0 2 ∧
    (thomasArraySolve 1 4 exTriArrays).X 5 2 = exTriArrays.X 5 2 ∧
    stageTri 1 exTriArrays 5 = inertTri := by
  have h := c6_padding_inert_and_invariant
  refine ⟨?_, (h.2.2.1 1 4 exTriArrays 5 2 (by omega)).1, h.1 1 exTriArrays 5 (by omega)⟩
  exact (h.2.2.2.2.1 1 2 4 exTriArrays _ (by omega)
    (fun I hI => by
      have hI0 : I = 0 := by omega
      subst hI0
      exact ⟨rfl, rfl, rfl, rfl⟩) 0 2 (by omega) (by omega)).1

/-! ## Claim C4: the PCR algorithm steps -/

theorem pcrStep_eq_spec (M h : ℕ) (s : TriSys) :
    pcrStep M h s = specPcrStep M h s := by
  have hlow : ∀ k, k < M → specClamp M ((k : ℤ) - (h : ℤ)) = k - h := by
    intro k hk
    simp only [specClamp]
    omega
  have hhigh : ∀ k, k < M →
      specClamp M ((k : ℤ) + (h : ℤ)) = clampHi M (k + h) := by
    intro k hk
    simp only [specClamp, clampHi]
    omega
  ext k <;>
    (by_cases hk : k < M
     · simp only [pcrStep, specPcrStep, hk, if_true, hlow k hk, hhigh k hk]
     · simp only [pcrStep, specPcrStep, hk, if_false])

/-- C4 (amended): for systems of M >= 2 rows, PCRSolver runs exactly
L-1 reduction levels where L = NLevels M is ceil(log2 M) (characterized
as the least L with M <= 2 ^ L) and then pairs rows at stride 2^(L-1);
each level applies exactly the alpha/gamma update of the spec with both
neighbor indices clamped to 0..M-1; in the final stage a lower row
k < M/2 with a partner solves the 2x2 system with determinant
diag k * diag (k+S) - sub (k+S) * super k, writing both x k and
x (k+S), and a boundary row with no valid partner divides
x k = rhs k / diag k.  The restriction to M >= 2 is forced: at M = 1
the source's final stride is 1 << -1, undefined behavior, and no
boundary divide happens (see the counterexample). -/
theorem c4_pcr_algorithm_steps (M : ℕ) (s : TriSys) :
    (1 ≤ M → M ≤ 2 ^ NLevels M ∧ ∀ L, M ≤ 2 ^ L → NLevels M ≤ L) ∧
    (2 ≤ M → pcrSolve1 M s =
      pcrFinal M (2 ^ (NLevels M - 1)) (pcrIter M s (NLevels M - 1))) ∧
    (∀ h, pcrStep M h s = specPcrStep M h s) ∧
    (∀ S k, M ≤ 2 * S → k < M / 2 → k + S < M →
      pcrFinal M S s k =
        (s.d (k + S) * s.x k - s.du k * s.x (k + S)) /
          (s.d k * s.d (k + S) - s.dl (k + S) * s.du k) ∧
      pcrFinal M S s (k + S) =
        (-s.dl (k + S) * s.x k + s.d k * s.x (k + S)) /
          (s.d k * s.d (k + S) - s.dl (k + S) * s.du k)) ∧
    (∀ S k, ¬(k + S < M ∨ S ≤ k) → pcrFinal M S s k = s.x k / s.d k) := by
  refine ⟨fun _ => ⟨le_pow_nlevels M, fun L hL => nlevels_le hL⟩,
    fun hM2 => funext fun k => by
      simp only [pcrSolve1]
      rw [if_pos hM2]
      rfl,
    fun h => pcrStep_eq_spec M h s, ?_, ?_⟩
  · intro S k hMS hk2 hkS
    constructor
    · rw [pcrFinal]
      rw [if_pos (Or.inl hkS), if_pos hk2]
    · have h1 : ¬(k + S < M / 2) := by omega
      have h2 : S ≤ k + S ∧ k + S - S < M / 2 := by
        constructor
        · omega
        · omega
      rw [pcrFinal]
      rw [if_pos (Or.inr h2.1), if_neg h1, if_pos h2]
      rw [Nat.add_sub_cancel]
  · intro S k hcond
    rw [pcrFinal, if_neg hcond]

/-- Counterexample to C4 as stated: the claim covers M = 1, but there
the source computes the final stride as 1 << -1 (undefined behavior)
and no boundary divide x 0 = rhs 0 / diag 0 is performed: on the
one-row system diag = 4, rhs = 5 the solver returns 5, not 5/4. -/
theorem c4_counterexample :
    pcrSolve1 1 exTriOne 0 = 5 ∧
    exTriOne.x 0 / exTriOne.d 0 = 5 / 4 ∧
    pcrSolve1 1 exTriOne 0 ≠ exTriOne.x 0 / exTriOne.d 0 := by
  have h1 : pcrSolve1 1 exTriOne 0 = 5 := by
    rw [pcrSolve1]
    norm_num [exTriOne]
  have h2 : exTriOne.x 0 / exTriOne.d 0 = 5 / 4 := rfl
  refine ⟨h1, h2, ?_⟩
  rw [h1, h2]
  norm_num

/-- Witness for C4 at the concrete 4-row scenario. -/
theorem c4_witness :
    (4 : ℕ) ≤ 2 ^ NLevels 4 ∧
    pcrSolve1 4 exTri =
      pcrFinal 4 (2 ^ (NLevels 4 - 1)) (pcrIter 4 exTri (NLevels 4 - 1)) ∧
    pcrStep 4 1 exTri = specPcrStep 4 1 exTri ∧
    pcrFinal 4 2 exTri 0 =
      (exTri.d 2 * exTri.x 0 - exTri.du 0 * exTri.x 2) /
        (exTri.d 0 * exTri.d 2 - exTri.dl 2 * exTri.du 0) ∧
    pcrFinal 4 4 exTri 1 = exTri.x 1 / exTri.d 1 := by
  have h := c4_pcr_algorithm_steps 4 exTri
  exact ⟨(h.1 (by omega)).1, h.2.1 (by omega), h.2.2.1 1,
    (h.2.2.2.1 2 0 (by omega) (by omega) (by omega)).1,
    h.2.2.2.2 4 1 (by omega)⟩

/-! ## Claim C5: the diffusion sequential algorithm steps -/

/-- C5: ThomasDiffusionSolver sets alpha 0 = 0 and computes alpha k from
the original H values by the stated recurrence; the capacity update adds
G 0 at row 0 and alpha k + G k at rows k >= 1; the right-hand side at
row k accumulates G (k-1) / H (k-1) * rhs (k-1) with the already updated
H (k-1); and back-substitution divides the last row and adds (not
subtracts) the coupled term at the remaining rows. -/
theorem c5_diffusion_sequential_steps (M : ℕ) (s : DiffSys) :
    diffAlpha s 0 = 0 ∧
    (∀ k, 1 ≤ k → diffAlpha s k =
      s.G (k - 1) * (s.H (k - 1) + diffAlpha s (k - 1)) /
        (s.H (k - 1) + diffAlpha s (k - 1) + s.G (k - 1))) ∧
    diffH s 0 = s.H 0 + s.G 0 ∧
    (∀ k, 1 ≤ k → diffH s k = s.H k + (diffAlpha s k + s.G k)) ∧
    diffR s 0 = s.X 0 ∧
    (∀ k, 1 ≤ k →
      diffR s k = s.X k + s.G (k - 1) / diffH s (k - 1) * diffR s (k - 1)) ∧
    thomasDiffSolve1 M s (M - 1) = diffR s (M - 1) / diffH s (M - 1) ∧
    (∀ k, k < M - 1 → thomasDiffSolve1 M s k =
      (diffR s k + s.G k * thomasDiffSolve1 M s (k + 1)) / diffH s k) := by
  have hrec : ∀ k, 1 ≤ k → ∃ j, k = j + 1 := fun k hk => ⟨k - 1, by omega⟩
  refine ⟨rfl, ?_, rfl, ?_, rfl, ?_, ?_, ?_⟩
  · intro k hk
    obtain ⟨j, rfl⟩ := hrec k hk
    simp only [Nat.add_sub_cancel]
    rfl
  · intro k hk
    obtain ⟨j, rfl⟩ := hrec k hk
    rfl
  · intro k hk
    obtain ⟨j, rfl⟩ := hrec k hk
    simp only [Nat.add_sub_cancel]
    rfl
  · show diffB s M (M - 1 - (M - 1)) = _
    rw [Nat.sub_self]
    rfl
  · intro k hk
    show diffB s M (M - 1 - k) = _
    have h1 : M - 1 - k = (M - 2 - k) + 1 := by omega
    rw [h1, diffB]
    have h2 : M - 2 - (M - 2 - k) = k := by omega
    have h3 : M - 1 - (k + 1) = M - 2 - k := by omega
    rw [h2, thomasDiffSolve1, h3]

/-- Witness for C5 at the 3-row all-ones diffusion system. -/
theorem c5_witness :
    diffAlpha exDiff 1 =
      exDiff.G 0 * (exDiff.H 0 + diffAlpha exDiff 0) /
        (exDiff.H 0 + diffAlpha exDiff 0 + exDiff.G 0) ∧
    thomasDiffSolve1 3 exDiff 1 =
      (diffR exDiff 1 + exDiff.G 1 * thomasDiffSolve1 3 exDiff 2) /
        diffH exDiff 1 := by
  have h := c5_diffusion_sequential_steps 3 exDiff
  exact ⟨by simpa using h.2.1 1 le_rfl,
    by simpa using h.2.2.2.2.2.2.2 1 (by omega)⟩

/-! ## Exactness of the Thomas solver -/

theorem dom_d_ne (M : ℕ) (s : TriSys) (hdom : DomTri M s) :
    ∀ k, k < M → s.d k ≠ 0 := by
  intro k hk
  have h := hdom k hk
  have h1 : (0 : ℚ) ≤ |s.dl k| + |s.du k| := by positivity
  intro h0
  rw [h0, abs_zero] at h
  linarith

/-- Under strict diagonal dominance every forward-swept pivot strictly
dominates the super-coefficient of its row, so no pivot vanishes. -/
theorem thomasD_dom (M : ℕ) (s : TriSys) (hdom : DomTri M s) :
    ∀ k, k < M → |s.du k| < |thomasD s k| := by
  intro k
  induction k with
  | zero =>
    intro hk
    have h := hdom 0 hk
    have h1 : (0 : ℚ) ≤ |s.dl 0| := abs_nonneg _
    rw [thomasD]
    linarith
  | succ k ih =>
    intro hk
    have hk' : k < M := by omega
    have ihk := ih hk'
    have hDne : thomasD s k ≠ 0 := by
      intro h0
      rw [h0, abs_zero] at ihk
      have := abs_nonneg (s.du k)
      linarith
    have hdom' := hdom (k + 1) hk
    have habs : |s.dl (k + 1) / thomasD s k * s.du k| ≤ |s.dl (k + 1)| := by
      rw [abs_mul, abs_div]
      have h1 : |s.du k| / |thomasD s k| ≤ 1 := by
        rw [div_le_one (abs_pos.2 hDne)]
        exact le_of_lt ihk
      calc |s.dl (k + 1)| / |thomasD s k| * |s.du k|
          = |s.dl (k + 1)| * (|s.du k| / |thomasD s k|) := by ring
        _ ≤ |s.dl (k + 1)| * 1 :=
            mul_le_mul_of_nonneg_left h1 (abs_nonneg _)
        _ = |s.dl (k + 1)| := mul_one _
    have htri : |s.d (k + 1)| - |s.dl (k + 1) / thomasD s k * s.du k|
        ≤ |thomasD s (k + 1)| := by
      rw [thomasD]
      exact abs_sub_abs_le_abs_sub _ _
    linarith

theorem thomasD_ne (M : ℕ) (s : TriSys) (hdom : DomTri M s) :
    ∀ k, k < M → thomasD s k ≠ 0 := by
  intro k hk h0
  have h := thomasD_dom M s hdom k hk
  rw [h0, abs_zero] at h
  have := abs_nonneg (s.du k)
  linarith

/-- The forward-swept right-hand side carries the two-term form of each
partially eliminated equation when rhs is the matrix action on v. -/
theorem thomasR_eq (M : ℕ) (s : TriSys) (v : ℕ → ℚ) (hdl0 : s.dl 0 = 0)
    (hpiv : ∀ k, k < M → thomasD s k ≠ 0)
    (hrhs : ∀ k, k < M → s.x k = applyTri s v k) :
    ∀ k, k < M → thomasR s k = thomasD s k * v k + s.du k * v (k + 1) := by
  intro k
  induction k with
  | zero =>
    intro hk
    rw [thomasR, hrhs 0 hk, applyTri, hdl0, thomasD]
    ring
  | succ k ih =>
    intro hk
    have hk' : k < M := by omega
    rw [thomasR, hrhs (k + 1) hk, ih hk', applyTri, thomasD]
    have h0 := hpiv k hk'
    field_simp
    ring

theorem thomasB_eq (M : ℕ) (s : TriSys) (v : ℕ → ℚ) (hM : 1 ≤ M)
    (hdl0 : s.dl 0 = 0) (hduM : s.du (M - 1) = 0)
    (hpiv : ∀ k, k < M → thomasD s k ≠ 0)
    (hrhs : ∀ k, k < M → s.x k = applyTri s v k) :
    ∀ j, j < M → thomasB s M j = v (M - 1 - j) := by
  have hR := thomasR_eq M s v hdl0 hpiv hrhs
  intro j
  induction j with
  | zero =>
    intro hj
    rw [thomasB, hR (M - 1) (by omega), hduM, Nat.sub_zero]
    rw [zero_mul, add_zero]
    exact mul_div_cancel_left₀ _ (hpiv (M - 1) (by omega))
  | succ j ih =>
    intro hj
    have hj' : j < M := by omega
    have hi : M - 2 - j < M := by omega
    have hidx : M - 1 - j = (M - 2 - j) + 1 := by omega
    rw [thomasB, ih hj', hR (M - 2 - j) hi, hidx]
    have h0 := hpiv (M - 2 - j) hi
    have hidx2 : M - 1 - (j + 1) = M - 2 - j := by omega
    rw [hidx2]
    field_simp

/-- Round-trip exactness of the Thomas solver: if rhs is the matrix
action on v and no pivot vanishes, the solver returns v. -/
theorem thomas_exact (M : ℕ) (s : TriSys) (v : ℕ → ℚ) (hM : 1 ≤ M)
    (hdl0 : s.dl 0 = 0) (hduM : s.du (M - 1) = 0)
    (hpiv : ∀ k, k < M → thomasD s k ≠ 0)
    (hrhs : ∀ k, k < M → s.x k = applyTri s v k) :
    ∀ k, k < M → thomasSolve1 M s k = v k := by
  intro k hk
  have h := thomasB_eq M s v hM hdl0 hduM hpiv hrhs (M - 1 - k) (by omega)
  rw [thomasSolve1, h]
  congr 1
  omega

theorem thomas_step (M : ℕ) (s : TriSys) (hM : 1 ≤ M)
    (hduM : s.du (M - 1) = 0)
    (hpiv : ∀ k, k < M → thomasD s k ≠ 0) :
    ∀ k, k < M → thomasD s k * thomasSolve1 M s k +
      s.du k * thomasSolve1 M s (k + 1) = thomasR s k := by
  intro k hk
  rcases Nat.lt_or_ge k (M - 1) with hmid | hlast
  · have hidx : M - 1 - k = (M - 2 - k) + 1 := by omega
    have h1 : thomasSolve1 M s k =
        (thomasR s k - s.du k * thomasSolve1 M s (k + 1)) / thomasD s k := by
      rw [thomasSolve1, hidx, thomasB]
      have h2 : M - 2 - (M - 2 - k) = k := by omega
      have h3 : M - 1 - (k + 1) = M - 2 - k := by omega
      rw [h2, thomasSolve1, h3]
    rw [h1]
    have h0 := hpiv k (by omega)
    field_simp
  · have hk1 : k = M - 1 := by omega
    subst hk1
    rw [hduM, zero_mul, add_zero, thomasSolve1, Nat.sub_self, thomasB, mul_comm]
    exact div_mul_cancel₀ _ (hpiv (M - 1) (by omega))

/-- The Thomas output satisfies every row equation of the input system. -/
theorem thomas_solves (M : ℕ) (s : TriSys) (hM : 1 ≤ M) (hdl0 : s.dl 0 = 0)
    (hduM : s.du (M - 1) = 0) (hpiv : ∀ k, k < M → thomasD s k ≠ 0) :
    ∀ k, k < M → applyTri s (thomasSolve1 M s) k = s.x k := by
  have hstar := thomas_step M s hM hduM hpiv
  intro k hk
  cases k with
  | zero =>
    have h1 := hstar 0 hk
    rw [thomasR] at h1
    rw [applyTri, hdl0, zero_mul, zero_add]
    exact h1
  | succ j =>
    have hj : j < M := by omega
    have h1 := hstar (j + 1) hk
    have h2 := hstar j hj
    rw [thomasR, ← h2] at h1
    have h0 := hpiv j hj
    rw [applyTri]
    simp only [Nat.add_sub_cancel]
    have hD : s.d (j + 1) =
        thomasD s (j + 1) + s.dl (j + 1) / thomasD s j * s.du j := by
      rw [thomasD]
      ring
    rw [hD]
    have hc : s.dl (j + 1) / thomasD s j * thomasD s j = s.dl (j + 1) :=
      div_mul_cancel₀ _ h0
    linear_combination h1 - thomasSolve1 M s j * hc

/-! ## Exactness of the PCR solver -/

theorem pcrStep_dl (M σ k : ℕ) (t : TriSys) (hk : k < M) :
    (pcrStep M σ t).dl k = -t.dl k / t.d (k - σ) * t.dl (k - σ) := by
  simp only [pcrStep, hk, if_true]

theorem pcrStep_d (M σ k : ℕ) (t : TriSys) (hk : k < M) :
    (pcrStep M σ t).d k = t.d k + -t.dl k / t.d (k - σ) * t.du (k - σ) +
      -t.du k / t.d (clampHi M (k + σ)) * t.dl (clampHi M (k + σ)) := by
  simp only [pcrStep, hk, if_true]

theorem pcrStep_du (M σ k : ℕ) (t : TriSys) (hk : k < M) :
    (pcrStep M σ t).du k =
      -t.du k / t.d (clampHi M (k + σ)) * t.du (clampHi M (k + σ)) := by
  simp only [pcrStep, hk, if_true]

theorem pcrStep_x (M σ k : ℕ) (t : TriSys) (hk : k < M) :
    (pcrStep M σ t).x k = t.x k + -t.dl k / t.d (k - σ) * t.x (k - σ) +
      -t.du k / t.d (clampHi M (k + σ)) * t.x (clampHi M (k + σ)) := by
  simp only [pcrStep, hk, if_true]

theorem pcrStep_preserves (M σ : ℕ) (hσ : 1 ≤ σ) (v : ℕ → ℚ) (t : TriSys)
    (hinv : PcrInv M σ v t) (hdom : DomTri M t) :
    PcrInv M (2 * σ) v (pcrStep M σ t) ∧ DomTri M (pcrStep M σ t) := by
  obtain ⟨hz1, hz2, heq⟩ := hinv
  have hdne : ∀ j, j < M → t.d j ≠ 0 := dom_d_ne M t hdom
  constructor
  · refine ⟨?_, ?_, ?_⟩
    -- the sub-coefficient vanishes below the new stride
    · intro k hk hk2
      rw [pcrStep_dl M σ k t hk]
      rcases Nat.lt_or_ge k σ with hks | hks
      · rw [hz1 k hk hks, neg_zero, zero_div, zero_mul]
      · rw [hz1 (k - σ) (by omega) (by omega), mul_zero]
    -- the super-coefficient vanishes within the new stride of the top
    · intro k hk hk2
      rw [pcrStep_du M σ k t hk]
      rcases Nat.lt_or_ge (k + σ) M with hkp | hkp
      · have hcl : clampHi M (k + σ) = k + σ := by
          rw [clampHi]
          omega
        rw [hcl, hz2 (k + σ) hkp (by omega), mul_zero]
      · rw [hz2 k hk hkp, neg_zero, zero_div, zero_mul]
    -- the row equation at the doubled stride
    · intro k hk
      have hM1 : 1 ≤ M := by omega
      have hkm : k - σ < M := by omega
      have hκlt : clampHi M (k + σ) < M := by
        rw [clampHi]
        omega
      set km := k - σ with hkm_def
      set κ := clampHi M (k + σ) with hκ_def
      set a := -t.dl k / t.d km with ha_def
      set g := -t.du k / t.d κ with hg_def
      rw [pcrStep_dl M σ k t hk, pcrStep_d M σ k t hk, pcrStep_du M σ k t hk,
        pcrStep_x M σ k t hk]
      have halpha : a * t.d km = -t.dl k := div_mul_cancel₀ _ (hdne km hkm)
      have hgamma : g * t.d κ = -t.du k := div_mul_cancel₀ _ (hdne κ hκlt)
      have ek := heq k hk
      have ekm := heq km hkm
      have eκ := heq κ hκlt
      have i1 : a * t.dl km * v (km - σ) = a * t.dl km * v (k - 2 * σ) := by
        rcases Nat.lt_or_ge k (2 * σ) with h2 | h2
        · rw [hz1 km hkm (by omega), mul_zero, zero_mul, zero_mul]
        · have : km - σ = k - 2 * σ := by omega
          rw [this]
      have i2 : a * t.d km * v km = -t.dl k * v (k - σ) := by
        rw [halpha]
      have i3 : a * t.du km * v (km + σ) = a * t.du km * v k := by
        rcases Nat.lt_or_ge k σ with hks | hks
        · have hdl0 : t.dl k = 0 := hz1 k hk hks
          rw [ha_def, hdl0]
          ring
        · have : km + σ = k := by omega
          rw [this]
      have i4 : g * t.dl κ * v (κ - σ) = g * t.dl κ * v k := by
        rcases Nat.lt_or_ge (k + σ) M with hkp | hkp
        · have h5 : κ = k + σ := by
            rw [hκ_def, clampHi]
            omega
          have h6 : κ - σ = k := by omega
          rw [h6]
        · have hdu0 : t.du k = 0 := hz2 k hk hkp
          rw [hg_def, hdu0]
          ring
      have i5 : g * t.d κ * v κ = -t.du k * v (k + σ) := by
        rcases Nat.lt_or_ge (k + σ) M with hkp | hkp
        · have h5 : κ = k + σ := by
            rw [hκ_def, clampHi]
            omega
          rw [hgamma, h5]
        · have hdu0 : t.du k = 0 := hz2 k hk hkp
          rw [hg_def, hdu0]
          ring
      have i6 : g * t.du κ * v (κ + σ) = g * t.du κ * v (k + 2 * σ) := by
        rcases Nat.lt_or_ge (k + σ) M with hkp | hkp
        · have h5 : κ = k + σ := by
            rw [hκ_def, clampHi]
            omega
          have h6 : κ + σ = k + 2 * σ := by omega
          rw [h6]
        · have hdu0 : t.du k = 0 := hz2 k hk hkp
          rw [hg_def, hdu0]
          ring
      linear_combination ek + a * ekm + g * eκ - i1 - i2 - i3 - i4 - i5 - i6
  -- preservation of strict diagonal dominance
  · intro k hk
    have hkm : k - σ < M := by omega
    have hκlt : clampHi M (k + σ) < M := by
      rw [clampHi]
      omega
    set km := k - σ with hkm_def
    set κ := clampHi M (k + σ) with hκ_def
    set a := -t.dl k / t.d km with ha_def
    set g := -t.du k / t.d κ with hg_def
    rw [pcrStep_dl M σ k t hk, pcrStep_d M σ k t hk, pcrStep_du M σ k t hk]
    have halpha : a * t.d km = -t.dl k := div_mul_cancel₀ _ (hdne km hkm)
    have hgamma : g * t.d κ = -t.du k := div_mul_cancel₀ _ (hdne κ hκlt)
    have hA : |a| * |t.d km| = |t.dl k| := by
      rw [← abs_mul, halpha, abs_neg]
    have hB : |g| * |t.d κ| = |t.du k| := by
      rw [← abs_mul, hgamma, abs_neg]
    have hdomk := hdom k hk
    have hdomkm := hdom km hkm
    have hdomκ := hdom κ hκlt
    have pm1 : |a| * |t.dl km| + |a| * |t.du km| ≤ |a| * |t.d km| := by
      have h1 := mul_le_mul_of_nonneg_left hdomkm.le (abs_nonneg a)
      rw [mul_add] at h1
      exact h1
    have pm2 : |g| * |t.dl κ| + |g| * |t.du κ| ≤ |g| * |t.d κ| := by
      have h1 := mul_le_mul_of_nonneg_left hdomκ.le (abs_nonneg g)
      rw [mul_add] at h1
      exact h1
    have tri : |t.d k| ≤ |t.d k + a * t.du km + g * t.dl κ| +
        |a| * |t.du km| + |g| * |t.dl κ| := by
      have t1 : t.d k = t.d k + a * t.du km + g * t.dl κ - a * t.du km -
          g * t.dl κ := by ring
      calc |t.d k| = |t.d k + a * t.du km + g * t.dl κ - a * t.du km -
          g * t.dl κ| := by rw [← t1]
        _ ≤ |t.d k + a * t.du km + g * t.dl κ - a * t.du km| +
            |g * t.dl κ| := abs_sub _ _
        _ ≤ |t.d k + a * t.du km + g * t.dl κ| + |a * t.du km| +
            |g * t.dl κ| := by
              have := abs_sub (t.d k + a * t.du km + g * t.dl κ) (a * t.du km)
              linarith
        _ = _ := by rw [abs_mul, abs_mul]
    rw [abs_mul, abs_mul]
    linarith


theorem pcrIter_preserves (M : ℕ) (v : ℕ → ℚ) (s : TriSys)
    (h0 : PcrInv M 1 v s) (hdom : DomTri M s) :
    ∀ n, PcrInv M (2 ^ n) v (pcrIter M s n) ∧ DomTri M (pcrIter M s n) := by
  intro n
  induction n with
  | zero =>
    rw [pow_zero]
    exact ⟨h0, hdom⟩
  | succ n ih =>
    have h := pcrStep_preserves M (2 ^ n) Nat.one_le_two_pow v
      (pcrIter M s n) ih.1 ih.2
    rw [pow_succ']
    exact h

theorem pcrFinal_exact (M S : ℕ) (hS : 1 ≤ S) (hMS : M ≤ 2 * S) (v : ℕ → ℚ)
    (t : TriSys) (hinv : PcrInv M S v t) (hdom : DomTri M t) :
    ∀ k, k < M → pcrFinal M S t k = v k := by
  obtain ⟨hz1, hz2, heq⟩ := hinv
  intro k hk
  rw [pcrFinal]
  by_cases hcond : k + S < M ∨ S ≤ k
  · rw [if_pos hcond]
    by_cases hhalf : k < M / 2
    · rw [if_pos hhalf]
      have hkS : k + S < M := by omega
      have hdl : t.dl k = 0 := hz1 k hk (by omega)
      have hdu : t.du (k + S) = 0 := hz2 (k + S) hkS (by omega)
      have ekk := heq k hk
      have ekS := heq (k + S) hkS
      rw [hdl, zero_mul, zero_add] at ekk
      rw [hdu, zero_mul, add_zero] at ekS
      have hidx : k + S - S = k := by omega
      rw [hidx] at ekS
      have hdet : t.d k * t.d (k + S) - t.dl (k + S) * t.du k ≠ 0 := by
        have h1 := hdom k hk
        have h2 := hdom (k + S) hkS
        rw [hdl, abs_zero, zero_add] at h1
        rw [hdu, abs_zero, add_zero] at h2
        intro h0
        have hne : |t.du k * t.dl (k + S)| < |t.d k * t.d (k + S)| := by
          rw [abs_mul, abs_mul]
          exact mul_lt_mul'' h1 h2 (abs_nonneg _) (abs_nonneg _)
        rw [sub_eq_zero] at h0
        rw [h0, mul_comm (t.dl (k + S))] at hne
        exact lt_irrefl _ hne
      rw [div_eq_iff hdet]
      linear_combination t.du k * ekS - t.d (k + S) * ekk
    · rw [if_neg hhalf]
      by_cases hpart : S ≤ k ∧ k - S < M / 2
      · rw [if_pos hpart]
        have hpS : k - S + S = k := by omega
        have hpM : k - S < M := by omega
        have hdlp : t.dl (k - S) = 0 := hz1 (k - S) hpM (by omega)
        have hduk : t.du k = 0 := hz2 k hk (by omega)
        have ep := heq (k - S) hpM
        have ekk := heq k hk
        rw [hdlp, zero_mul, zero_add, hpS] at ep
        rw [hduk, zero_mul, add_zero] at ekk
        have hdet : t.d (k - S) * t.d k - t.dl k * t.du (k - S) ≠ 0 := by
          have h1 := hdom (k - S) hpM
          have h2 := hdom k hk
          rw [hdlp, abs_zero, zero_add] at h1
          rw [hduk, abs_zero, add_zero] at h2
          intro h0
          have hne : |t.dl k * t.du (k - S)| < |t.d (k - S) * t.d k| := by
            rw [abs_mul, abs_mul, mul_comm (|t.d (k - S)|)]
            exact mul_lt_mul'' h2 h1 (abs_nonneg _) (abs_nonneg _)
          rw [sub_eq_zero] at h0
          rw [h0] at hne
          exact lt_irrefl _ hne
        rw [div_eq_iff hdet]
        linear_combination t.dl k * ep - t.d (k - S) * ekk
      · exfalso
        omega
  · rw [if_neg hcond]
    have hdl : t.dl k = 0 := hz1 k hk (by omega)
    have hdu : t.du k = 0 := hz2 k hk (by omega)
    have ekk := heq k hk
    rw [hdl, zero_mul, zero_add, hdu, zero_mul, add_zero] at ekk
    rw [← ekk, mul_comm]
    exact mul_div_cancel_right₀ _ (dom_d_ne M t hdom k hk)

theorem pcr_exact (M : ℕ) (s : TriSys) (v : ℕ → ℚ) (hM2 : 2 ≤ M)
    (hdl0 : s.dl 0 = 0) (hduM : s.du (M - 1) = 0) (hdom : DomTri M s)
    (hrhs : ∀ k, k < M → s.x k = applyTri s v k) :
    ∀ k, k < M → pcrSolve1 M s k = v k := by
  have h0 : PcrInv M 1 v s := by
    refine ⟨?_, ?_, ?_⟩
    · intro k hkM hk1
      have hk0 : k = 0 := by omega
      rw [hk0, hdl0]
    · intro k hkM hkS
      have hk0 : k = M - 1 := by omega
      rw [hk0, hduM]
    · intro k hkM
      rw [hrhs k hkM, applyTri]
  have hres := pcrIter_preserves M v s h0 hdom (NLevels M - 1)
  intro k hk
  have hfin := pcrFinal_exact M (2 ^ (NLevels M - 1)) Nat.one_le_two_pow
    (le_two_mul_stride M) v (pcrIter M s (NLevels M - 1)) hres.1 hres.2 k hk
  simp only [pcrSolve1]
  rw [if_pos hM2]
  exact hfin


/-! ## Claim C1: round-trip correctness -/

/-- C1 (amended): for every batch with NRow >= 1 whose systems are well
posed (strictly diagonally dominant, with the structurally absent
corner coefficients sub 0 and super (NRow-1) zero), if each right-hand
side is the matrix action of the system on a solution vector, then the
ThomasSolver entry point overwrites the right-hand sides with exactly
that solution vector, and so does the PCRSolver entry point whenever
NRow >= 2.  The PCR restriction is forced: at NRow = 1 the source's
final stride is 1 << -1 (undefined behavior) and the right-hand side is
returned undivided (see the counterexample). -/
theorem c1_round_trip (NBatch NRow : ℕ) (A : TriArrays) (xs : ℕ → ℕ → ℚ)
    (hM : 1 ≤ NRow)
    (hcz : ∀ I, I < NBatch → CornersZero NRow (stageTri NBatch A I))
    (hdom : ∀ I, I < NBatch → DomTri NRow (stageTri NBatch A I))
    (hrhs : ∀ I, I < NBatch → ∀ k, k < NRow →
      A.X I k = applyTri (stageTri NBatch A I) (xs I) k) :
    ∀ I, I < NBatch → ∀ k, k < NRow →
      (thomasArraySolve NBatch NRow A).X I k = xs I k ∧
      (2 ≤ NRow → (pcrArraySolve NBatch NRow A).X I k = xs I k) := by
  intro I hI k hk
  have hsx : (stageTri NBatch A I).x = A.X I := by
    rw [stageTri, if_pos hI]
  obtain ⟨hc1, hc2⟩ := hcz I hI
  have hd := hdom I hI
  have hrhs' : ∀ j, j < NRow →
      (stageTri NBatch A I).x j = applyTri (stageTri NBatch A I) (xs I) j := by
    intro j hj
    rw [hsx]
    exact hrhs I hI j hj
  constructor
  · show (if I < NBatch ∧ k < NRow then
        thomasSolve1 NRow (stageTri NBatch A I) k else A.X I k) = xs I k
    rw [if_pos ⟨hI, hk⟩]
    exact thomas_exact NRow (stageTri NBatch A I) (xs I) hM hc1 hc2
      (thomasD_ne NRow _ hd) hrhs' k hk
  · intro hM2
    show (if I < NBatch ∧ k < NRow then
        pcrSolve1 NRow (stageTri NBatch A I) k else A.X I k) = xs I k
    rw [if_pos ⟨hI, hk⟩]
    exact pcr_exact NRow (stageTri NBatch A I) (xs I) hM2 hc1 hc2 hd hrhs' k hk

/-- Counterexample to C1 as stated: a well-posed one-row batch (diag =
4, corners zero, dominant) with rhs = A x for x = 5/4; PCRSolver's
entry point returns 5, not 5/4, because at one row the source's final
stride is 1 << -1 (undefined behavior) and nothing divides. -/
theorem c1_counterexample :
    CornersZero 1 (stageTri 1 exTriOneArrays 0) ∧
    DomTri 1 (stageTri 1 exTriOneArrays 0) ∧
    (∀ k, k < 1 → exTriOneArrays.X 0 k =
      applyTri (stageTri 1 exTriOneArrays 0) (fun _ => 5 / 4) k) ∧
    (pcrArraySolve 1 1 exTriOneArrays).X 0 0 = 5 ∧
    (5 : ℚ) ≠ 5 / 4 := by
  have hst : stageTri 1 exTriOneArrays 0 = exTriOne := by
    rw [stageTri, if_pos Nat.one_pos]
    rfl
  refine ⟨?_, ?_, ?_, ?_, by norm_num⟩
  · rw [hst]
    exact ⟨rfl, rfl⟩
  · rw [hst]
    intro k hk
    norm_num [exTriOne]
  · intro k hk
    rw [hst]
    interval_cases k
    norm_num [exTriOneArrays, exTriOne, applyTri]
  · show (if (0:ℕ) < 1 ∧ (0:ℕ) < 1 then
        pcrSolve1 1 (stageTri 1 exTriOneArrays 0) 0 else exTriOneArrays.X 0 0) = 5
    rw [if_pos ⟨Nat.one_pos, Nat.one_pos⟩, hst, pcrSolve1]
    norm_num [exTriOne]

/-- Witness for C1: the spec scenario has rhs = A x for x = (1,1,1,1),
is diagonally dominant, and both solvers recover x. -/
theorem c1_witness :
    (thomasArraySolve 1 4 exTriArrays).X 0 2 = 1 ∧
    (pcrArraySolve 1 4 exTriArrays).X 0 2 = 1 := by
  have hst : stageTri 1 exTriArrays 0 = exTri := by
    rw [stageTri, if_pos Nat.one_pos]
    rfl
  have h := c1_round_trip 1 4 exTriArrays (fun _ _ => 1) (by omega)
    (fun I hI => by
      have hI0 : I = 0 := by omega
      subst hI0
      rw [hst]
      constructor <;> norm_num [exTri])
    (fun I hI => by
      have hI0 : I = 0 := by omega
      subst hI0
      rw [hst]
      intro k hk
      interval_cases k <;> norm_num [exTri, DomTri])
    (fun I hI => by
      have hI0 : I = 0 := by omega
      subst hI0
      rw [hst]
      intro k hk
      interval_cases k <;> norm_num [exTri, exTriArrays, applyTri])
    0 (by omega) 2 (by omega)
  exact ⟨h.1, h.2 (by omega)⟩

/-! ## Claim C3: diffusion solvers against the translated system -/

theorem diffAlpha_nonneg (M : ℕ) (s : DiffSys) (hpos : PosDiff M s) :
    ∀ k, k < M → 0 ≤ diffAlpha s k ∧ 0 < s.H k + diffAlpha s k := by
  intro k
  induction k with
  | zero =>
    intro hk
    rw [diffAlpha]
    exact ⟨le_refl 0, by linarith [(hpos 0 hk).1]⟩
  | succ k ih =>
    intro hk
    have hk' : k < M := by omega
    obtain ⟨ha, hha⟩ := ih hk'
    have hG := (hpos k hk').2
    have hH := (hpos (k + 1) hk).1
    have halpha : 0 ≤ diffAlpha s (k + 1) := by
      rw [diffAlpha]
      positivity
    exact ⟨halpha, by linarith⟩

theorem diffDen_eq (s : DiffSys) :
    ∀ k, s.H k + diffAlpha s k + s.G k = diffH s k := by
  intro k
  cases k with
  | zero =>
    rw [diffAlpha, diffH]
    ring
  | succ k =>
    rw [diffH]
    ring

theorem diffH_pos (M : ℕ) (s : DiffSys) (hpos : PosDiff M s) :
    ∀ k, k < M → 0 < diffH s k := by
  intro k hk
  rw [← diffDen_eq]
  have h1 := (diffAlpha_nonneg M s hpos k hk).2
  have h2 := (hpos k hk).2
  linarith

theorem diffToTri_thomasD (M : ℕ) (s : DiffSys) (hpos : PosDiff M s) :
    ∀ k, k < M → thomasD (diffToTri s) k = diffH s k := by
  intro k
  induction k with
  | zero =>
    intro hk
    rw [thomasD, diffH]
    simp [diffToTri]
  | succ k ih =>
    intro hk
    have hk' : k < M := by omega
    have hden := diffH_pos M s hpos k hk'
    have hden' : diffH s k ≠ 0 := ne_of_gt hden
    rw [thomasD, ih hk']
    have hdl : (diffToTri s).dl (k + 1) = -s.G k := by
      simp [diffToTri]
    have hdu : (diffToTri s).du k = -s.G k := rfl
    have hd : (diffToTri s).d (k + 1) = s.H (k + 1) + s.G (k + 1) + s.G k := by
      simp [diffToTri]
    rw [hdl, hdu, hd]
    have halpha : diffAlpha s (k + 1) =
        s.G k * (diffH s k - s.G k) / diffH s k := by
      rw [diffAlpha]
      have h1 : s.H k + diffAlpha s k = diffH s k - s.G k := by
        have := diffDen_eq s k
        linarith
      rw [h1]
      ring_nf
    rw [diffH, halpha]
    field_simp
    ring

theorem diffToTri_thomasR (M : ℕ) (s : DiffSys) (hpos : PosDiff M s) :
    ∀ k, k < M → thomasR (diffToTri s) k = diffR s k := by
  intro k
  induction k with
  | zero =>
    intro hk
    rw [thomasR, diffR]
    rfl
  | succ k ih =>
    intro hk
    have hk' : k < M := by omega
    rw [thomasR, ih hk', diffToTri_thomasD M s hpos k hk', diffR]
    have hdl : (diffToTri s).dl (k + 1) = -s.G k := by
      simp [diffToTri]
    have hx : (diffToTri s).x (k + 1) = s.X (k + 1) := rfl
    rw [hdl, hx]
    ring

theorem diffToTri_thomasB (M : ℕ) (s : DiffSys) (hM : 1 ≤ M)
    (hpos : PosDiff M s) :
    ∀ j, j < M → thomasB (diffToTri s) M j = diffB s M j := by
  intro j
  induction j with
  | zero =>
    intro hj
    rw [thomasB, diffB, diffToTri_thomasD M s hpos (M - 1) (by omega),
      diffToTri_thomasR M s hpos (M - 1) (by omega)]
  | succ j ih =>
    intro hj
    have hj' : j < M := by omega
    have hi : M - 2 - j < M := by omega
    rw [thomasB, diffB, ih hj', diffToTri_thomasD M s hpos _ hi,
      diffToTri_thomasR M s hpos _ hi]
    have hdu : (diffToTri s).du (M - 2 - j) = -s.G (M - 2 - j) := rfl
    rw [hdu]
    ring_nf


theorem thomasD_congr (M : ℕ) (s t : TriSys)
    (hdl : ∀ j, j < M → s.dl j = t.dl j)
    (hd : ∀ j, j < M → s.d j = t.d j)
    (hdu : ∀ j, j + 1 < M → s.du j = t.du j) :
    ∀ k, k < M → thomasD s k = thomasD t k := by
  intro k
  induction k with
  | zero =>
    intro hk
    rw [thomasD, thomasD, hd 0 hk]
  | succ k ih =>
    intro hk
    rw [thomasD, thomasD, hd (k + 1) hk, hdl (k + 1) hk, hdu k hk,
      ih (by omega)]

theorem thomasR_congr (M : ℕ) (s t : TriSys)
    (hdl : ∀ j, j < M → s.dl j = t.dl j)
    (hd : ∀ j, j < M → s.d j = t.d j)
    (hdu : ∀ j, j + 1 < M → s.du j = t.du j)
    (hx : ∀ j, j < M → s.x j = t.x j) :
    ∀ k, k < M → thomasR s k = thomasR t k := by
  intro k
  induction k with
  | zero =>
    intro hk
    rw [thomasR, thomasR, hx 0 hk]
  | succ k ih =>
    intro hk
    rw [thomasR, thomasR, hx (k + 1) hk, hdl (k + 1) hk,
      thomasD_congr M s t hdl hd hdu k (by omega), ih (by omega)]

/-- The Thomas solve reads only the first M rows of a system (and the
super-diagonal only below row M-1), so it is invariant under changes
outside that window. -/
theorem thomasSolve1_congr (M : ℕ) (s t : TriSys)
    (hdl : ∀ j, j < M → s.dl j = t.dl j)
    (hd : ∀ j, j < M → s.d j = t.d j)
    (hdu : ∀ j, j + 1 < M → s.du j = t.du j)
    (hx : ∀ j, j < M → s.x j = t.x j) :
    ∀ k, k < M → thomasSolve1 M s k = thomasSolve1 M t k := by
  have hB : ∀ j, j < M → thomasB s M j = thomasB t M j := by
    intro j
    induction j with
    | zero =>
      intro hj
      rw [thomasB, thomasB,
        thomasR_congr M s t hdl hd hdu hx (M - 1) (by omega),
        thomasD_congr M s t hdl hd hdu (M - 1) (by omega)]
    | succ j ih =>
      intro hj
      rw [thomasB, thomasB, ih (by omega),
        thomasR_congr M s t hdl hd hdu hx (M - 2 - j) (by omega),
        thomasD_congr M s t hdl hd hdu (M - 2 - j) (by omega),
        hdu (M - 2 - j) (by omega)]
  intro k hk
  rw [thomasSolve1, thomasSolve1, hB (M - 1 - k) (by omega)]

/-- When the last coupling vanishes, the spec's literal translation and
the code's effective translation agree on every entry the Thomas solver
reads, hence on the solution. -/
theorem specDiffToTri_agree (M : ℕ) (s : DiffSys) (hG : s.G (M - 1) = 0) :
    ∀ k, k < M →
      thomasSolve1 M (specDiffToTri M s) k = thomasSolve1 M (diffToTri s) k := by
  apply thomasSolve1_congr
  · intro j hj
    rfl
  · intro j hj
    show s.H j + (if j = 0 then 0 else s.G (j - 1)) +
        (if j + 1 < M then s.G j else 0) =
      s.H j + s.G j + (if j = 0 then 0 else s.G (j - 1))
    by_cases hjM : j + 1 < M
    · rw [if_pos hjM]
      ring
    · have hj1 : j = M - 1 := by omega
      rw [if_neg hjM, hj1, hG]
      ring
  · intro j hj
    show (if j + 1 < M then -s.G j else 0) = -s.G j
    rw [if_pos hj]
  · intro j hj
    rfl

/-- Counterexample to C3 as worded: on the well-posed all-ones 3-row
diffusion batch the code's diffusion solver returns 12/13 at row 0,
but the general solver on the claim's translated system (whose last
diagonal is H 2 + G 1 only, without the boundary coupling G 2) returns
exactly 1 - the code folds G (M-1) into the last diagonal and the
claim's translation does not. -/
theorem c3_counterexample :
    thomasDiffSolve1 3 exDiff 0 = 12 / 13 ∧
    thomasSolve1 3 (specDiffToTri 3 exDiff) 0 = 1 ∧
    thomasDiffSolve1 3 exDiff 0 ≠ thomasSolve1 3 (specDiffToTri 3 exDiff) 0 := by
  have h1 : thomasDiffSolve1 3 exDiff 0 = 12 / 13 := by
    show diffB exDiff 3 (3 - 1 - 0) = 12 / 13
    norm_num [diffB, diffR, diffH, diffAlpha, exDiff]
  have h2 : thomasSolve1 3 (specDiffToTri 3 exDiff) 0 = 1 := by
    show thomasB (specDiffToTri 3 exDiff) 3 (3 - 1 - 0) = 1
    norm_num [thomasB, thomasR, thomasD, specDiffToTri, exDiff]
  refine ⟨h1, h2, ?_⟩
  rw [h1, h2]
  norm_num

/-- C3 (amended): for every well-posed diffusion system, the
diffusion-coefficient Thomas solver returns exactly the solution of the
general Thomas solver on the code's effective translated system - whose
last diagonal is H (M-1) plus BOTH G (M-2) and the boundary coupling
G (M-1); the claim's literal translation (last diagonal without
G (M-1)) agrees exactly when the last coupling G (M-1) is zero, the
only change the counterexample forces. -/
theorem c3_diffusion_translation_agrees (M : ℕ) (s : DiffSys) (hM : 1 ≤ M)
    (hpos : PosDiff M s) :
    (∀ k, k < M → thomasDiffSolve1 M s k = thomasSolve1 M (diffToTri s) k) ∧
    (s.G (M - 1) = 0 → ∀ k, k < M →
      thomasDiffSolve1 M s k = thomasSolve1 M (specDiffToTri M s) k) := by
  have hbase : ∀ k, k < M →
      thomasDiffSolve1 M s k = thomasSolve1 M (diffToTri s) k := by
    intro k hk
    rw [thomasDiffSolve1, thomasSolve1]
    exact (diffToTri_thomasB M s hM hpos (M - 1 - k) (by omega)).symm
  refine ⟨hbase, fun hG k hk => ?_⟩
  rw [hbase k hk, specDiffToTri_agree M s hG k hk]

/-- Witness for C3 at a concrete positive 4-row diffusion system with
zero last coupling, exercising both the effective and the literal
translation. -/
theorem c3_witness :
    thomasDiffSolve1 4 exDiff0 1 = thomasSolve1 4 (diffToTri exDiff0) 1 ∧
    thomasDiffSolve1 4 exDiff0 1 = thomasSolve1 4 (specDiffToTri 4 exDiff0) 1 := by
  have hpos : PosDiff 4 exDiff0 := by
    intro k hk
    refine ⟨?_, ?_⟩
    · show (0 : ℚ) < (k + 2 : ℚ)
      positivity
    · show (0 : ℚ) ≤ (if k < 3 then (k + 1 : ℚ) else 0)
      split <;> positivity
  have h := c3_diffusion_translation_agrees 4 exDiff0 (by omega) hpos
  exact ⟨h.1 1 (by omega), h.2 (by norm_num [exDiff0]) 1 (by omega)⟩


/-! ## Claim C2: backend equivalence -/

theorem pcrDiffStep_G (M σ k : ℕ) (s : DiffSys) (hk : k < M) :
    (pcrDiffStep M σ s).G k = s.G (clampHi M (k + σ)) *
      (s.G k /
        (s.H (clampHi M (k + σ)) + s.G k + s.G (clampHi M (k + σ)))) := by
  simp only [pcrDiffStep, hk, if_true]

theorem pcrDiffStep_H (M σ k : ℕ) (s : DiffSys) (hk : k < M) :
    (pcrDiffStep M σ s).H k = s.H k +
      gms σ s k / (s.H (k - σ) + gms (2 * σ) s k + gms σ s k) * s.H (k - σ) +
      s.G k / (s.H (clampHi M (k + σ)) + s.G k + s.G (clampHi M (k + σ))) *
        s.H (clampHi M (k + σ)) := by
  simp only [pcrDiffStep, gms, hk, if_true]

theorem pcrDiffStep_X (M σ k : ℕ) (s : DiffSys) (hk : k < M) :
    (pcrDiffStep M σ s).X k = s.X k +
      gms σ s k / (s.H (k - σ) + gms (2 * σ) s k + gms σ s k) * s.X (k - σ) +
      s.G k / (s.H (clampHi M (k + σ)) + s.G k + s.G (clampHi M (k + σ))) *
        s.X (clampHi M (k + σ)) := by
  simp only [pcrDiffStep, gms, hk, if_true]

theorem gms_nonneg (σ M : ℕ) (s : DiffSys)
    (hG : ∀ j, j < M → 0 ≤ s.G j) (k : ℕ) (hk : k < M) : 0 ≤ gms σ s k := by
  rw [gms]
  split
  · exact le_refl 0
  · exact hG (k - σ) (by omega)

theorem gms_shift (σ : ℕ) (s : DiffSys) (k : ℕ) (hσk : σ ≤ k) :
    gms σ s (k - σ) = gms (2 * σ) s k := by
  rw [gms, gms]
  by_cases h : k - σ < σ
  · rw [if_pos h, if_pos (by omega)]
  · rw [if_neg h, if_neg (by omega)]
    congr 1
    omega

theorem gms_of_lt (σ : ℕ) (s : DiffSys) (k : ℕ) (h : k < σ) :
    gms σ s k = 0 := by
  rw [gms, if_pos h]

theorem gms_of_ge (σ : ℕ) (s : DiffSys) (k : ℕ) (h : σ ≤ k) :
    gms σ s k = s.G (k - σ) := by
  rw [gms, if_neg (by omega)]


theorem pcrDiffStep_preserves (M σ : ℕ) (hσ : 1 ≤ σ) (v : ℕ → ℚ)
    (s : DiffSys) (hinv : PcrDiffInv M σ v s) :
    PcrDiffInv M (2 * σ) v (pcrDiffStep M σ s) := by
  obtain ⟨hzG, hpos, heq⟩ := hinv
  have hposH : ∀ j, j < M → 0 < s.H j := fun j hj => (hpos j hj).1
  have hposG : ∀ j, j < M → 0 ≤ s.G j := fun j hj => (hpos j hj).2
  refine ⟨?_, ?_, ?_⟩
  · -- couplings reaching above the top vanish at the doubled stride
    intro k hk hk2
    rw [pcrDiffStep_G M σ k s hk]
    by_cases hup : M ≤ k + σ
    · rw [hzG k hk hup, zero_div, mul_zero]
    · have hκ : clampHi M (k + σ) = k + σ := by
        rw [clampHi]
        omega
      rw [hκ, hzG (k + σ) (by omega) (by omega), zero_mul]
  · -- positivity is preserved
    intro k hk
    have hkm : k - σ < M := by omega
    have hκM : clampHi M (k + σ) < M := by
      rw [clampHi]
      omega
    have hdenα : 0 < s.H (k - σ) + gms (2 * σ) s k + gms σ s k := by
      have h1 := hposH (k - σ) hkm
      have h2 := gms_nonneg (2 * σ) M s hposG k hk
      have h3 := gms_nonneg σ M s hposG k hk
      linarith
    have hdenβ : 0 < s.H (clampHi M (k + σ)) + s.G k +
        s.G (clampHi M (k + σ)) := by
      have h1 := hposH _ hκM
      have h2 := hposG k hk
      have h3 := hposG _ hκM
      linarith
    have ha : 0 ≤ gms σ s k / (s.H (k - σ) + gms (2 * σ) s k + gms σ s k) :=
      div_nonneg (gms_nonneg σ M s hposG k hk) hdenα.le
    have hb : 0 ≤ s.G k / (s.H (clampHi M (k + σ)) + s.G k +
        s.G (clampHi M (k + σ))) :=
      div_nonneg (hposG k hk) hdenβ.le
    constructor
    · rw [pcrDiffStep_H M σ k s hk]
      have h1 := hposH k hk
      have h2 := mul_nonneg ha (hposH (k - σ) hkm).le
      have h3 := mul_nonneg hb (hposH _ hκM).le
      linarith
    · rw [pcrDiffStep_G M σ k s hk]
      exact mul_nonneg (hposG _ hκM) hb
  · -- the row equation at the doubled stride
    intro k hk
    have hkm : k - σ < M := by omega
    have hκM : clampHi M (k + σ) < M := by
      rw [clampHi]
      omega
    have hdenα : 0 < s.H (k - σ) + gms (2 * σ) s k + gms σ s k := by
      have h1 := hposH (k - σ) hkm
      have h2 := gms_nonneg (2 * σ) M s hposG k hk
      have h3 := gms_nonneg σ M s hposG k hk
      linarith
    have hcross : gms (2 * σ) (pcrDiffStep M σ s) k =
        gms σ s k / (s.H (k - σ) + gms (2 * σ) s k + gms σ s k) *
          gms (2 * σ) s k := by
      by_cases h2 : k < 2 * σ
      · rw [gms_of_lt _ _ _ h2, gms_of_lt _ _ _ h2, mul_zero]
      · have h2' : 2 * σ ≤ k := by omega
        rw [gms_of_ge _ _ _ h2', pcrDiffStep_G M σ (k - 2 * σ) s (by omega)]
        have hidx : k - 2 * σ + σ = k - σ := by omega
        have hcl : clampHi M (k - σ) = k - σ := by
          rw [clampHi]
          omega
        rw [hidx, hcl, gms_of_ge _ _ _ (by omega : σ ≤ k),
          gms_of_ge _ _ _ h2']
        ring
    rw [pcrDiffStep_H M σ k s hk, pcrDiffStep_X M σ k s hk,
      pcrDiffStep_G M σ k s hk, hcross]
    have ek := heq k hk
    by_cases hup : k + σ < M
    · have hκeq : clampHi M (k + σ) = k + σ := by
        rw [clampHi]
        omega
      rw [hκeq]
      have hdenβ : (0:ℚ) < s.H (k + σ) + s.G k + s.G (k + σ) := by
        have h1 := hposH (k + σ) hup
        have h2 := hposG k hk
        have h3 := hposG (k + σ) hup
        linarith
      have ekp := heq (k + σ) hup
      rw [gms_of_ge _ _ _ (by omega : σ ≤ k + σ), Nat.add_sub_cancel,
        show k + σ + σ = k + 2 * σ by omega] at ekp
      have hcb : s.G k / (s.H (k + σ) + s.G k + s.G (k + σ)) *
          (s.H (k + σ) + s.G k + s.G (k + σ)) = s.G k :=
        div_mul_cancel₀ _ (ne_of_gt hdenβ)
      by_cases hσk : σ ≤ k
      · rw [gms_of_ge _ _ _ hσk] at ek hdenα ⊢
        have ekm := heq (k - σ) hkm
        rw [gms_shift σ s k hσk,
          show k - σ - σ = k - 2 * σ by omega,
          show k - σ + σ = k by omega] at ekm
        have hca : s.G (k - σ) /
            (s.H (k - σ) + gms (2 * σ) s k + s.G (k - σ)) *
            (s.H (k - σ) + gms (2 * σ) s k + s.G (k - σ)) = s.G (k - σ) :=
          div_mul_cancel₀ _ (ne_of_gt hdenα)
        linear_combination ek +
          (s.G (k - σ) / (s.H (k - σ) + gms (2 * σ) s k + s.G (k - σ))) * ekm +
          (s.G k / (s.H (k + σ) + s.G k + s.G (k + σ))) * ekp +
          (v k - v (k - σ)) * hca + (v k - v (k + σ)) * hcb
      · have hgm0 : gms σ s k = 0 := gms_of_lt _ _ _ (by omega)
        rw [hgm0] at ek ⊢
        rw [zero_div, zero_mul, zero_mul, zero_mul, zero_mul]
        linear_combination ek +
          (s.G k / (s.H (k + σ) + s.G k + s.G (k + σ))) * ekp +
          (v k - v (k + σ)) * hcb
    · have hG0 : s.G k = 0 := hzG k hk (by omega)
      rw [hG0] at ek ⊢
      by_cases hσk : σ ≤ k
      · rw [gms_of_ge _ _ _ hσk] at ek hdenα ⊢
        have ekm := heq (k - σ) hkm
        rw [gms_shift σ s k hσk,
          show k - σ - σ = k - 2 * σ by omega,
          show k - σ + σ = k by omega] at ekm
        have hca : s.G (k - σ) /
            (s.H (k - σ) + gms (2 * σ) s k + s.G (k - σ)) *
            (s.H (k - σ) + gms (2 * σ) s k + s.G (k - σ)) = s.G (k - σ) :=
          div_mul_cancel₀ _ (ne_of_gt hdenα)
        linear_combination ek +
          (s.G (k - σ) / (s.H (k - σ) + gms (2 * σ) s k + s.G (k - σ))) * ekm +
          (v k - v (k - σ)) * hca
      · have hgm0 : gms σ s k = 0 := gms_of_lt _ _ _ (by omega)
        rw [hgm0] at ek ⊢
        rw [zero_div, zero_mul, zero_mul, zero_mul, zero_mul]
        linear_combination ek


theorem pcrDiffIter_preserves (M : ℕ) (v : ℕ → ℚ) (s : DiffSys)
    (h0 : PcrDiffInv M 1 v s) :
    ∀ n, PcrDiffInv M (2 ^ n) v (pcrDiffIter M s n) := by
  intro n
  induction n with
  | zero =>
    rw [pow_zero]
    exact h0
  | succ n ih =>
    have h := pcrDiffStep_preserves M (2 ^ n) Nat.one_le_two_pow v
      (pcrDiffIter M s n) ih
    rw [pow_succ']
    exact h

theorem pcrDiffFinal_exact (M S : ℕ) (hMS : M ≤ 2 * S)
    (v : ℕ → ℚ) (s : DiffSys) (hinv : PcrDiffInv M S v s) :
    ∀ k, k < M → pcrDiffFinal M S s k = v k := by
  obtain ⟨hzG, hpos, heq⟩ := hinv
  have hposH : ∀ j, j < M → 0 < s.H j := fun j hj => (hpos j hj).1
  have hposG : ∀ j, j < M → 0 ≤ s.G j := fun j hj => (hpos j hj).2
  intro k hk
  simp only [pcrDiffFinal]
  by_cases hcond : k + S < M ∨ S ≤ k
  · rw [if_pos hcond]
    by_cases hhalf : k < M / 2
    · rw [if_pos hhalf]
      have hkS : k + S < M := by omega
      have hGtop : s.G (k + S) = 0 := hzG (k + S) hkS (by omega)
      have hgk : gms S s k = 0 := gms_of_lt _ _ _ (by omega)
      have hgkS : gms S s (k + S) = s.G k := by
        rw [gms_of_ge _ _ _ (by omega), Nat.add_sub_cancel]
      have ekk := heq k hk
      have ekS := heq (k + S) hkS
      rw [hgk] at ekk
      rw [hgkS, hGtop, Nat.add_sub_cancel,
        show k + S + S = k + 2 * S by omega] at ekS
      rw [if_pos (by omega : k < S), hGtop]
      have hDk : (0:ℚ) < s.H k + 0 + s.G k := by
        have := hposH k hk
        have := hposG k hk
        linarith
      have hDkS : (0:ℚ) < s.H (k + S) + s.G k + 0 := by
        have := hposH (k + S) hkS
        have := hposG k hk
        linarith
      have hdet : (s.H k + 0 + s.G k) * (s.H (k + S) + s.G k + 0) -
          -s.G k * -s.G k ≠ 0 := by
        have h1 := hposH k hk
        have h2 := hposH (k + S) hkS
        have h3 := hposG k hk
        nlinarith
      rw [div_eq_iff hdet]
      linear_combination (-(s.H (k + S) + s.G k + 0)) * ekk - s.G k * ekS
    · rw [if_neg hhalf]
      by_cases hpart : S ≤ k ∧ k - S < M / 2
      · rw [if_pos hpart]
        have hpM : k - S < M := by omega
        have hGk : s.G k = 0 := hzG k hk (by omega)
        have hgp : gms S s (k - S) = 0 := gms_of_lt _ _ _ (by omega)
        have hgk : gms S s k = s.G (k - S) := gms_of_ge _ _ _ hpart.1
        have ep := heq (k - S) hpM
        have ekk := heq k hk
        rw [hgp, show k - S - S = k - 2 * S by omega,
          show k - S + S = k by omega] at ep
        rw [hgk, hGk] at ekk
        rw [if_pos (by omega : k - S < S), hGk]
        have hdet : (s.H (k - S) + 0 + s.G (k - S)) *
            (s.H k + s.G (k - S) + 0) -
            -s.G (k - S) * -s.G (k - S) ≠ 0 := by
          have h1 := hposH (k - S) hpM
          have h2 := hposH k hk
          have h3 := hposG (k - S) hpM
          nlinarith
        rw [div_eq_iff hdet]
        linear_combination (-(s.G (k - S))) * ep +
          (-(s.H (k - S) + 0 + s.G (k - S))) * ekk
      · exfalso
        omega
  · rw [if_neg hcond]
    have hGk : s.G k = 0 := hzG k hk (by omega)
    have hgk : gms S s k = 0 := gms_of_lt _ _ _ (by omega)
    have ekk := heq k hk
    rw [hgk, hGk] at ekk
    rw [if_pos (by omega : k < S), hGk]
    have hH := hposH k hk
    rw [eq_comm, eq_div_iff (by linarith : s.H k + 0 + 0 ≠ (0:ℚ))]
    linear_combination ekk


theorem pcrDiff_exact (M : ℕ) (s : DiffSys) (v : ℕ → ℚ) (hM2 : 2 ≤ M)
    (hpos : PosDiff M s) (hG : s.G (M - 1) = 0)
    (hrhs : ∀ k, k < M → s.X k = applyTri (diffToTri s) v k) :
    ∀ k, k < M → pcrDiffSolve1 M s k = v k := by
  have h0 : PcrDiffInv M 1 v s := by
    refine ⟨?_, hpos, ?_⟩
    · intro k hkM hkS
      have hk0 : k = M - 1 := by omega
      rw [hk0, hG]
    · intro k hkM
      rw [hrhs k hkM, applyTri]
      cases k with
      | zero =>
        rw [gms_of_lt _ _ _ Nat.one_pos]
        simp only [diffToTri]
        norm_num
        ring
      | succ j =>
        rw [gms_of_ge _ _ _ (by omega), Nat.add_sub_cancel]
        simp only [diffToTri, Nat.add_sub_cancel]
        have hne : j + 1 ≠ 0 := by omega
        rw [if_neg hne, if_neg hne]
        ring
  have hres := pcrDiffIter_preserves M v s h0 (NLevels M - 1)
  intro k hk
  have hfin := pcrDiffFinal_exact M (2 ^ (NLevels M - 1))
    (le_two_mul_stride M) v (pcrDiffIter M s (NLevels M - 1)) hres k hk
  simp only [pcrDiffSolve1]
  rw [if_pos hM2]
  exact hfin

theorem diffToTri_dom (M : ℕ) (s : DiffSys) (hpos : PosDiff M s) :
    DomTri M (diffToTri s) := by
  intro k hk
  have hH := (hpos k hk).1
  have hG := (hpos k hk).2
  cases k with
  | zero =>
    show |(if (0:ℕ) = 0 then (0:ℚ) else -s.G (0 - 1))| + |-s.G 0| <
      |s.H 0 + s.G 0 + if (0:ℕ) = 0 then (0:ℚ) else s.G (0 - 1)|
    rw [if_pos rfl, if_pos rfl, abs_zero, abs_neg, abs_of_nonneg hG,
      abs_of_pos (by linarith), add_zero]
    linarith
  | succ j =>
    have hG' := (hpos j (by omega)).2
    have hne : j + 1 ≠ 0 := by omega
    show |(if j + 1 = 0 then (0:ℚ) else -s.G (j + 1 - 1))| + |-s.G (j + 1)| <
      |s.H (j + 1) + s.G (j + 1) + if j + 1 = 0 then (0:ℚ) else s.G (j + 1 - 1)|
    rw [if_neg hne, if_neg hne]
    simp only [Nat.add_sub_cancel]
    rw [abs_neg, abs_neg, abs_of_nonneg hG', abs_of_nonneg hG,
      abs_of_pos (by linarith)]
    linarith


/-- C2 (amended): the lane-parallel and group-parallel solvers of the
same family produce exactly the same solutions for every well-posed
batch of M >= 2 rows, where for the tridiagonal family well-posedness
is strict diagonal dominance with zero corner coefficients, and for the
diffusion family it is positive capacities, nonnegative couplings, and
a zero last coupling G (M-1).  The G (M-1) condition is forced by the
counterexample: with it nonzero the two diffusion solvers resolve the
boundary row differently and their exact solutions differ.  The M >= 2
restriction is forced by the one-row case, where the PCR solvers hit
the undefined-behavior stride 1 << -1 and return the right-hand side
undivided while the Thomas solvers divide. -/
theorem c2_backend_equivalence_amended :
    (∀ M (s : TriSys), 2 ≤ M → CornersZero M s → DomTri M s →
      ∀ k, k < M → pcrSolve1 M s k = thomasSolve1 M s k) ∧
    (∀ M (s : DiffSys), 2 ≤ M → PosDiff M s → s.G (M - 1) = 0 →
      ∀ k, k < M → pcrDiffSolve1 M s k = thomasDiffSolve1 M s k) := by
  constructor
  · rintro M s hM2 ⟨hdl0, hduM⟩ hdom k hk
    have hM : 1 ≤ M := by omega
    have hpiv := thomasD_ne M s hdom
    have hrhs : ∀ j, j < M → s.x j = applyTri s (thomasSolve1 M s) j :=
      fun j hj => (thomas_solves M s hM hdl0 hduM hpiv j hj).symm
    rw [pcr_exact M s (thomasSolve1 M s) hM2 hdl0 hduM hdom hrhs k hk]
  · intro M s hM2 hpos hG k hk
    have hM : 1 ≤ M := by omega
    have hdomt : DomTri M (diffToTri s) := diffToTri_dom M s hpos
    have hdl0 : (diffToTri s).dl 0 = 0 := by
      show (if (0:ℕ) = 0 then (0:ℚ) else -s.G (0 - 1)) = 0
      rw [if_pos rfl]
    have hduM : (diffToTri s).du (M - 1) = 0 := by
      show -s.G (M - 1) = 0
      rw [hG, neg_zero]
    have hpiv := thomasD_ne M (diffToTri s) hdomt
    have hrhs : ∀ j, j < M → s.X j =
        applyTri (diffToTri s) (thomasSolve1 M (diffToTri s)) j :=
      fun j hj =>
        (thomas_solves M (diffToTri s) hM hdl0 hduM hpiv j hj).symm
    have h1 := pcrDiff_exact M s (thomasSolve1 M (diffToTri s)) hM2 hpos hG
      hrhs k hk
    have h2 : thomasDiffSolve1 M s k = thomasSolve1 M (diffToTri s) k := by
      rw [thomasDiffSolve1, thomasSolve1]
      exact (diffToTri_thomasB M s hM hpos (M - 1 - k) (by omega)).symm
    rw [h1, h2]

/-- Counterexample to C2 as stated: on the 3-row diffusion system with
all couplings and capacities one (last coupling G 2 = 1, nonzero), the
two diffusion solvers return different exact values at row 0, apart by
more than any rounding tolerance. -/
theorem c2_counterexample :
    thomasDiffSolve1 3 exDiff 0 = 12 / 13 ∧
    pcrDiffSolve1 3 exDiff 0 = 33 / 34 ∧
    thomasDiffSolve1 3 exDiff 0 ≠ pcrDiffSolve1 3 exDiff 0 ∧
    |thomasDiffSolve1 3 exDiff 0 - pcrDiffSolve1 3 exDiff 0| > 1 / 100 := by
  have h1 : thomasDiffSolve1 3 exDiff 0 = 12 / 13 := by
    show diffB exDiff 3 (3 - 1 - 0) = 12 / 13
    norm_num [diffB, diffR, diffH, diffAlpha, exDiff]
  have h2 : pcrDiffSolve1 3 exDiff 0 = 33 / 34 := by
    have hred : pcrDiffIter 3 exDiff (NLevels 3 - 1) = pcrDiffIter 3 exDiff 1 := by
      rw [nlevels_three]
    show pcrDiffFinal 3 (2 ^ (NLevels 3 - 1)) (pcrDiffIter 3 exDiff (NLevels 3 - 1)) 0 = 33 / 34
    rw [hred, nlevels_three]
    norm_num [pcrDiffFinal, pcrDiffIter, pcrDiffStep, clampHi, exDiff]
  refine ⟨h1, h2, ?_, ?_⟩
  · rw [h1, h2]
    norm_num
  · rw [h1, h2]
    rw [abs_of_neg (by norm_num : (12:ℚ)/13 - 33/34 < 0)]
    norm_num

/-- Witness for the amended C2 at concrete well-posed systems. -/
theorem c2_witness :
    pcrSolve1 4 exTri 2 = thomasSolve1 4 exTri 2 ∧
    pcrDiffSolve1 4 exDiff0 2 = thomasDiffSolve1 4 exDiff0 2 := by
  have h := c2_backend_equivalence_amended
  constructor
  · refine h.1 4 exTri (by omega) ⟨?_, ?_⟩ ?_ 2 (by omega)
    · norm_num [exTri]
    · norm_num [exTri]
    · intro k hk
      interval_cases k <;> norm_num [exTri]
  · refine h.2 4 exDiff0 (by omega) ?_ ?_ 2 (by omega)
    · intro k hk
      refine ⟨?_, ?_⟩
      · show (0 : ℚ) < (k + 2 : ℚ)
        positivity
      · show (0 : ℚ) ≤ (if k < 3 then (k + 1 : ℚ) else 0)
        split <;> positivity
    · norm_num [exDiff0]


end OmegaTridiag
